import Mathlib

/-!
# ChessKnightsJourney: the movement and turn engine of `main.js`

A shallow embedding of `handleCardSelection`, `endPlayerAction` and the board
click listener installed by `initGame`, with the deferred `setTimeout`
callbacks kept as explicit pending continuations.

Conventions of the embedding:

* the mutable record `gameState` is the structure `GameState`, passed and
  returned explicitly;
* JavaScript numbers that hold counters and coordinates are `Int` (all values
  stay far inside the exactly representable range);
* a value that may be `null`/`undefined` is an `Option`; an object or an array
  (also an empty one) is truthy, so `card.upgrades` is `Option (List Upgrade)`;
* rendering calls and `console.log` have no effect on `gameState` and are
  omitted;
* `calculateValidMoves` lives in `src/logic.js`, outside `main.js`, and is a
  parameter `cvm` of the functions that call it;
* `gameState.gameObjects` and `gameState.enemies` are two arrays, as `main.js`
  reads them; the `player` object captured by a callback is kept as its index
  in `gameObjects`, an array that `main.js` never reorders or resizes.
-/

namespace ChessKnightsJourney

/-! ## Data model -/

/-- Board coordinate, the `{row, col}` objects of the source. -/
structure Position where
  row : Int
  col : Int
deriving DecidableEq, Repr

/-- Upgrade record; only its `id` is read by `main.js`. -/
structure Upgrade where
  id : String
deriving DecidableEq, Repr

/-- Card instance with the fields `main.js` reads: `card_id`, `name`, `upgrades`. -/
structure Card where
  card_id : String
  name : String
  upgrades : Option (List Upgrade)
deriving DecidableEq, Repr

/-- Board occupant with the fields `main.js` reads: `type`, `row`, `col`. -/
structure GameObject where
  type : String
  row : Int
  col : Int
deriving DecidableEq, Repr

/-- The shared record `gameState`, restricted to the fields `main.js` touches. -/
structure GameState where
  deck : List Card
  hand : List Card
  discardPile : List Card
  gameObjects : List GameObject
  enemies : List GameObject
  selectedCard : Option Card
  highlightedSquares : List Position
  actionsRemaining : Int
  playerArmor : Int
deriving DecidableEq, Repr

/-- The type of `calculateValidMoves(position, card)` from `src/logic.js`. -/
abbrev MoveRule := Position → Card → List Position

/-! ## Array helpers -/

/-- Index of the first element satisfying `p`, if any. -/
def findIndex? {α : Type} (p : α → Bool) : List α → Option Nat
  | [] => none
  | x :: xs => if p x then some 0 else (findIndex? p xs).map (· + 1)

/-- JavaScript `Array.prototype.findIndex`: the first index satisfying `p`, or `-1`. -/
def findIndex {α : Type} (p : α → Bool) (l : List α) : Int :=
  match findIndex? p l with
  | some i => (i : Int)
  | none => -1

/-- JavaScript `array.splice(start, 1)`: a negative `start` counts from the end
(clamped at 0), a `start` past the end removes nothing. -/
def splice1 {α : Type} (l : List α) (start : Int) : List α :=
  if 0 ≤ start then l.eraseIdx start.toNat
  else l.eraseIdx (l.length - (-start).toNat)

/-- Assignment `obj.row = p.row; obj.col = p.col` to the object stored at index `i`. -/
def setPositionAt : List GameObject → Nat → Position → List GameObject
  | [], _, _ => []
  | o :: os, 0, p => { o with row := p.row, col := p.col } :: os
  | o :: os, i + 1, p => o :: setPositionAt os i p

/-- The callback `obj => obj.type === 'player'`. -/
def isPlayer (o : GameObject) : Bool := o.type == "player"

/-- The callback `u => u.id === id` under `upgrades.some`. -/
def hasUpgradeId (us : List Upgrade) (id : String) : Bool :=
  us.any (fun u => u.id == id)

/-! ## Functions of `src/state.js` -/

/-- Modelled from the spec: `useCard` of `src/state.js`, which is not part of
`main.js`. Section 4.4 step 4: the card instance is removed from `hand` and
then appended to `discardPile`; an id absent from `hand` is a silent no-op.
It does not touch `selectedCard`. -/
def useCard (s : GameState) (cardId : String) : GameState :=
  match s.hand.find? (fun c => c.card_id == cardId) with
  | none => s
  | some c =>
    { s with
      hand := s.hand.eraseP (fun c => c.card_id == cardId)
      discardPile := s.discardPile ++ [c] }

/-- Modelled from the spec: `clearSelection` of `src/state.js`, which is not
part of `main.js`. Section 4.3: clears `selectedCard` and `highlightedSquares`
unconditionally. -/
def clearSelection (s : GameState) : GameState :=
  { s with selectedCard := none, highlightedSquares := [] }

/-! ## `handleCardSelection` and `endPlayerAction` -/

/-- The function `handleCardSelection(cardInstanceId)` of `main.js`. -/
def handleCardSelection (cvm : MoveRule) (s : GameState) (cardInstanceId : String) :
    GameState :=
  let s1 : GameState :=
    if s.actionsRemaining ≤ 0 then { s with actionsRemaining := 1 } else s
  if s1.actionsRemaining ≤ 0 then s1
  else
    match s1.hand.find? (fun c => c.card_id == cardInstanceId) with
    | none => s1
    | some card =>
      let s2 : GameState := { s1 with selectedCard := some card }
      match s2.gameObjects.find? isPlayer with
      | some player =>
        { s2 with highlightedSquares := cvm { row := player.row, col := player.col } card }
      | none => { s2 with highlightedSquares := [] }

/-- The function `endPlayerAction()` of `main.js`. -/
def endPlayerAction (s : GameState) : GameState :=
  let s1 : GameState := { s with actionsRemaining := s.actionsRemaining - 1 }
  match s1.selectedCard with
  | none => s1
  | some card =>
    match card.upgrades with
    | none => s1
    | some upgrades =>
      if hasUpgradeId upgrades "stamina_1" then
        { s1 with actionsRemaining := s1.actionsRemaining + 1 }
      else s1

/-! ## The board click listener and its deferred callbacks -/

/-- What the board click listener reads from the DOM event: the enclosing
`.square` element (with its parsed `data-row`, `data-col`), if any, and whether
the click target carries the class `game-object`. -/
structure ClickEvent where
  square : Option Position
  onGameObject : Bool
deriving DecidableEq, Repr

/-- A click on the square at `p` itself. -/
def clickAt (p : Position) : ClickEvent := { square := some p, onGameObject := false }

/-- The three `setTimeout` callbacks of the listener, in source order. -/
inductive Branch where
  | reverse
  | upgraded
  | plain
deriving DecidableEq, Repr

/-- A scheduled `setTimeout` callback together with the variables its closure
captured: `enemyIndex`, the `player` object (as its index in `gameObjects`),
`startPosition`, and the delay in milliseconds passed to `setTimeout`. -/
structure Continuation where
  branch : Branch
  enemyIndex : Int
  playerIndex : Nat
  startPosition : Position
  delay : Nat
deriving DecidableEq, Repr

/-- The board click listener up to and including the `setTimeout` call:
returns the state after the synchronous part and the callback it scheduled. -/
def boardClick (s : GameState) (ev : ClickEvent) : GameState × Option Continuation :=
  match ev.square, s.selectedCard with
  | some sq, some selected =>
    if ev.onGameObject then (s, none)
    else
      let isValidMove : Bool :=
        s.highlightedSquares.any (fun h => h.row == sq.row && h.col == sq.col)
      if isValidMove && decide (s.actionsRemaining > 0) then
        let s1 : GameState := { s with highlightedSquares := [] }
        match s1.gameObjects.find? isPlayer, findIndex? isPlayer s1.gameObjects with
        | some player, some playerIndex =>
          let startPosition : Position := { row := player.row, col := player.col }
          let enemyIndex : Int :=
            findIndex (fun e => e.row == sq.row && e.col == sq.col) s1.enemies
          let s2 : GameState :=
            { s1 with gameObjects := setPositionAt s1.gameObjects playerIndex sq }
          match selected.upgrades with
          | some upgrades =>
            if hasUpgradeId upgrades "reverse_1" then
              (s2, some { branch := .reverse, enemyIndex := enemyIndex,
                          playerIndex := playerIndex, startPosition := startPosition,
                          delay := 300 })
            else
              (s2, some { branch := .upgraded, enemyIndex := enemyIndex,
                          playerIndex := playerIndex, startPosition := startPosition,
                          delay := 30 })
          | none =>
            (s2, some { branch := .plain, enemyIndex := enemyIndex,
                        playerIndex := playerIndex, startPosition := startPosition,
                        delay := 300 })
        | _, _ => (s1, none)
      else (s, none)
  | _, _ => (s, none)

/-- The callback scheduled on the reverse branch (source lines 195-235). -/
def fireReverse (s : GameState) (k : Continuation) : GameState :=
  let s1 : GameState :=
    if k.enemyIndex ≠ -1 then { s with enemies := splice1 s.enemies k.enemyIndex } else s
  let s2 : GameState :=
    match s1.selectedCard with
    | some card => useCard s1 card.card_id
    | none => s1
  let s3 : GameState :=
    { s2 with gameObjects := setPositionAt s2.gameObjects k.playerIndex k.startPosition }
  let s4 : GameState :=
    match s3.selectedCard with
    | none => s3
    | some card =>
      match card.upgrades with
      | none => s3
      | some upgrades =>
        if hasUpgradeId upgrades "armor_1" then { s3 with playerArmor := s3.playerArmor + 1 }
        else s3
  endPlayerAction (clearSelection s4)

/-- The callback scheduled on the upgraded non-reverse branch (source lines 239-270). -/
def fireUpgraded (s : GameState) (k : Continuation) : GameState :=
  let s1 : GameState :=
    if k.enemyIndex ≠ -1 then { s with enemies := splice1 s.enemies k.enemyIndex } else s
  let s2 : GameState :=
    match s1.selectedCard with
    | some card => useCard s1 card.card_id
    | none => s1
  let s3 : GameState :=
    match s2.selectedCard with
    | none => s2
    | some card =>
      match card.upgrades with
      | none => s2
      | some upgrades =>
        if hasUpgradeId upgrades "armor_1" then { s2 with playerArmor := s2.playerArmor + 1 }
        else s2
  endPlayerAction (clearSelection s3)

/-- The callback scheduled on the non-upgrade branch (source lines 275-306). -/
def firePlain (s : GameState) (k : Continuation) : GameState :=
  let s1 : GameState :=
    if k.enemyIndex ≠ -1 then { s with enemies := splice1 s.enemies k.enemyIndex } else s
  let s2 : GameState :=
    match s1.selectedCard with
    | some card => useCard s1 card.card_id
    | none => s1
  let s3 : GameState :=
    match s2.selectedCard with
    | none => s2
    | some card =>
      match card.upgrades with
      | none => s2
      | some upgrades =>
        if hasUpgradeId upgrades "armor_1" then { s2 with playerArmor := s2.playerArmor + 1 }
        else s2
  endPlayerAction (clearSelection s3)

/-- Running a scheduled callback on the state it finds when the timer expires. -/
def fire (s : GameState) (k : Continuation) : GameState :=
  match k.branch with
  | .reverse => fireReverse s k
  | .upgraded => fireUpgraded s k
  | .plain => firePlain s k

/-- A commit followed at once by its deferred callback: the full resolution. -/
def resolve (s : GameState) (ev : ClickEvent) : GameState :=
  match (boardClick s ev).2 with
  | some k => fire (boardClick s ev).1 k
  | none => (boardClick s ev).1

/-! ## Vocabulary of the statements -/

/-- The commit guard: a card is selected, the click is on a square that is a
member of `highlightedSquares`, and `actionsRemaining > 0`. -/
def commitAccepted (s : GameState) (ev : ClickEvent) : Bool :=
  match ev.square with
  | none => false
  | some sq =>
    !ev.onGameObject && s.selectedCard.isSome &&
      s.highlightedSquares.any (fun h => h.row == sq.row && h.col == sq.col) &&
      decide (s.actionsRemaining > 0)

/-- Position of the first player object, if there is one. -/
def playerPosition (s : GameState) : Option Position :=
  (s.gameObjects.find? isPlayer).map (fun o => { row := o.row, col := o.col })

/-- Whether the card carries an upgrade with the given id. -/
def Card.carries (c : Card) (id : String) : Bool :=
  match c.upgrades with
  | some us => hasUpgradeId us id
  | none => false

/-- Whether an enemy stands on square `p`. -/
def enemyAt (p : Position) (e : GameObject) : Bool := e.row == p.row && e.col == p.col

/-- Armor granted by a callback that finds `sel` as the selected card. -/
def armorGain (sel : Option Card) : Int :=
  match sel with
  | some card => if card.carries "armor_1" then 1 else 0
  | none => 0

/-! ## The event loop: interleaving of inputs and timers -/

/-- The engine state together with the timers that have not fired yet. -/
structure World where
  state : GameState
  pending : List Continuation
deriving DecidableEq, Repr

/-- One turn of the event loop. -/
inductive Step where
  | selectCard (cardInstanceId : String)
  | commitDestination (ev : ClickEvent)
  | fireContinuation (i : Nat)
deriving DecidableEq, Repr

/-- Effect of one event on the world. -/
def step (cvm : MoveRule) (w : World) : Step → World
  | .selectCard cardInstanceId =>
    { w with state := handleCardSelection cvm w.state cardInstanceId }
  | .commitDestination ev =>
    { state := (boardClick w.state ev).1
      pending := w.pending ++ (boardClick w.state ev).2.toList }
  | .fireContinuation i =>
    match w.pending.get? i with
    | some k => { state := fire w.state k, pending := w.pending.eraseIdx i }
    | none => w

/-- Effect of a sequence of events. -/
def run (cvm : MoveRule) (w : World) (steps : List Step) : World :=
  steps.foldl (step cvm) w

/-! ## Fixtures for the concrete scenarios -/

/-- A sample move rule for the concrete scenarios: the eight knight offsets,
kept when they land on an 8 by 8 board. -/
def knightMoves : MoveRule := fun origin _ =>
  ([(2, 1), (2, -1), (-2, 1), (-2, -1), (1, 2), (1, -2), (-1, 2), (-1, -2)].map
    (fun (d : Int × Int) => ({ row := origin.row + d.1, col := origin.col + d.2 } : Position))).filter
    (fun p => decide (0 ≤ p.row) && decide (p.row < 8) && decide (0 ≤ p.col) && decide (p.col < 8))


/-- A card without an `upgrades` field. -/
def plainCard : Card := { card_id := "c0", name := "knight", upgrades := none }

/-- A card whose only upgrade is `stamina_1`. -/
def staminaCard : Card :=
  { card_id := "c1", name := "knight", upgrades := some [{ id := "stamina_1" }] }

/-- A card with the upgrades `reverse_1` and `armor_1`. -/
def reverseArmorCard : Card :=
  { card_id := "c2", name := "knight",
    upgrades := some [{ id := "reverse_1" }, { id := "armor_1" }] }

/-- Start of a turn: player on (0,0), an enemy on (1,2), three cards in hand,
nothing selected, one action. -/
def startState : GameState :=
  { deck := [], hand := [plainCard, staminaCard, reverseArmorCard], discardPile := [],
    gameObjects := [{ type := "player", row := 0, col := 0 }, { type := "enemy", row := 1, col := 2 }],
    enemies := [{ type := "enemy", row := 1, col := 2 }],
    selectedCard := none, highlightedSquares := [], actionsRemaining := 1, playerArmor := 0 }

/-- The start state after the stamina card has been selected. -/
def staminaState : GameState := handleCardSelection knightMoves startState "c1"

/-- The start state after the card without upgrades has been selected. -/
def plainState : GameState := handleCardSelection knightMoves startState "c0"

/-- Player on (2,2), an enemy on (3,0), the reverse/armor card selected. -/
def reverseState : GameState :=
  handleCardSelection knightMoves
    { startState with
      gameObjects := [{ type := "player", row := 2, col := 2 }, { type := "enemy", row := 3, col := 0 }]
      enemies := [{ type := "enemy", row := 3, col := 0 }] } "c2"

/-- A state without any player object in which a square is highlighted. -/
def noPlayerState : GameState :=
  { startState with
    gameObjects := [{ type := "enemy", row := 1, col := 2 }]
    selectedCard := some plainCard
    highlightedSquares := [{ row := 1, col := 2 }] }

/-- The start state with no action left. -/
def exhaustedState : GameState := { startState with actionsRemaining := 0 }

/-- The world after selecting a card and committing to (1,2): one timer pending. -/
def worldAfterCommit : World :=
  run knightMoves { state := startState, pending := [] }
    [.selectCard "c0", .commitDestination (clickAt { row := 1, col := 2 })]

/-- The same world after a further card selection, the timer still pending. -/
def worldAfterReselect : World := step knightMoves worldAfterCommit (.selectCard "c1")

/-- The same world after a second commit, to (2,4), the first timer still pending. -/
def worldAfterSecondCommit : World :=
  step knightMoves worldAfterReselect (.commitDestination (clickAt { row := 2, col := 4 }))

/-! ## `getDeckCards` -/

/-- Names of the members that the object literal `{}` inherits from
`Object.prototype`; `obj[name]` is truthy for each of them although `obj` has
no own property of that name, and none of the inherited values has a `push`
method. -/
def objectPrototypeKeys : List String :=
  ["constructor", "hasOwnProperty", "isPrototypeOf", "propertyIsEnumerable",
   "toLocaleString", "toString", "valueOf", "__proto__", "__defineGetter__",
   "__defineSetter__", "__lookupGetter__", "__lookupSetter__"]

/-- The object `groupedCards`: its own properties, each holding an array of
cards. Only lookup by key is modelled, not the enumeration order. -/
abbrev Grouped := List (String × List Card)

/-- The own property `groupedCards[key]`, when there is one. -/
def Grouped.own (g : Grouped) (key : String) : Option (List Card) :=
  match g with
  | [] => none
  | (k, cards) :: rest => if k == key then some cards else Grouped.own rest key

/-- Truthiness of the expression `groupedCards[key]`: an own array, or a member
inherited from `Object.prototype`. -/
def Grouped.truthy (g : Grouped) (key : String) : Bool :=
  (g.own key).isSome || objectPrototypeKeys.contains key

/-- The call `groupedCards[key].push(card)` on an own array. -/
def Grouped.push (g : Grouped) (key : String) (card : Card) : Grouped :=
  match g with
  | [] => []
  | (k, cards) :: rest =>
    if k == key then (k, cards ++ [card]) :: rest else (k, cards) :: Grouped.push rest key card

/-- Body of the `forEach` callback of `getDeckCards`; `none` stands for the
`TypeError` raised when `groupedCards[cardType].push` is not a function. -/
def groupCard (g : Grouped) (card : Card) : Option Grouped :=
  let cardType := card.name
  let g1 : Grouped := if !g.truthy cardType then g ++ [(cardType, [])] else g
  match g1.own cardType with
  | some _ => some (g1.push cardType card)
  | none => none

/-- The `forEach` loop of `getDeckCards`, which stops at the first exception. -/
def groupAll : Grouped → List Card → Option Grouped
  | g, [] => some g
  | g, card :: cards =>
    match groupCard g card with
    | some g1 => groupAll g1 cards
    | none => none

/-- The function `getDeckCards()` of `main.js`: the game state it leaves behind
and the value it returns (`none` when it throws). -/
def getDeckCards (s : GameState) : GameState × Option Grouped :=
  let allCards := s.deck ++ s.hand ++ s.discardPile
  (s, groupAll [] allCards)

/-- The cards of a sequence that bear the name `n`, in the same order. -/
def cardsNamed (n : String) (cards : List Card) : List Card :=
  cards.filter (fun c => c.name == n)

/-- Sum of the sizes of all groups. -/
def Grouped.totalSize (g : Grouped) : Nat := (g.map (fun kv => kv.2.length)).sum

/-! ## Sequences of operations that resolve each commit at once -/

/-- An input operation of the engine; a commit runs its resolution to
completion before the next operation. -/
inductive Operation where
  | selectCard (cardInstanceId : String)
  | clearSelection
  | commitDestination (ev : ClickEvent)
deriving DecidableEq, Repr

/-- Effect of one operation. -/
def applyOperation (cvm : MoveRule) (s : GameState) : Operation → GameState
  | .selectCard cardInstanceId => handleCardSelection cvm s cardInstanceId
  | .clearSelection => clearSelection s
  | .commitDestination ev => resolve s ev

/-- Effect of a sequence of operations. -/
def applyOperations (cvm : MoveRule) (s : GameState) (ops : List Operation) : GameState :=
  ops.foldl (applyOperation cvm) s

/-! ## The linear reference pipeline of the specification -/

/-- Reference step "set the player to a position": the first player object
takes the position, all other objects are kept; nothing happens without a
player object. -/
def setPlayerPosition : List GameObject → Position → List GameObject
  | [], _ => []
  | o :: os, p =>
    if isPlayer o then { o with row := p.row, col := p.col } :: os
    else o :: setPlayerPosition os p

/-- Reference pipeline, written from the words of the specification and not
from the code: set the player to the destination; remove the enemy found at
the destination; `useCard` of the selected card; with `reverse_1` set the
player back to the origin; with `armor_1` add 1 to `playerArmor`;
`clearSelection`; `endPlayerAction`. Every step is a no-op when what it needs
is missing. -/
def referencePipeline (s : GameState) (d : Position) : GameState :=
  let origin := playerPosition s
  let committed := s.selectedCard
  let s1 : GameState := { s with gameObjects := setPlayerPosition s.gameObjects d }
  let s2 : GameState := { s1 with enemies := s1.enemies.eraseP (enemyAt d) }
  let s3 : GameState :=
    match committed with
    | some card => useCard s2 card.card_id
    | none => s2
  let s4 : GameState :=
    match committed, origin with
    | some card, some o =>
      if card.carries "reverse_1" then
        { s3 with gameObjects := setPlayerPosition s3.gameObjects o }
      else s3
    | _, _ => s3
  let s5 : GameState :=
    match committed with
    | some card =>
      if card.carries "armor_1" then { s4 with playerArmor := s4.playerArmor + 1 } else s4
    | none => s4
  endPlayerAction (clearSelection s5)

/-! ## Further fixtures -/

/-- A card whose name is the name of a member of `Object.prototype`. -/
def constructorCard : Card := { card_id := "c9", name := "constructor", upgrades := none }

/-- The start state with one more card in the deck, named `constructor`. -/
def constructorState : GameState := { startState with deck := [constructorCard] }

/-! ## Lemmas on the array helpers -/

theorem findIndex?_isSome_iff_find? {α : Type} (p : α → Bool) (l : List α) :
    (findIndex? p l).isSome = (l.find? p).isSome := by
  induction l with
  | nil => rfl
  | cons x xs ih =>
    by_cases hx : p x = true
    · simp [findIndex?, List.find?, hx]
    · simp only [Bool.not_eq_true] at hx
      simp [findIndex?, List.find?, hx, ih]

theorem find?_isPlayer_setPositionAt (l : List GameObject) (i : Nat) (p : Position)
    (hi : findIndex? isPlayer l = some i) :
    (setPositionAt l i p).find? isPlayer =
      (l.find? isPlayer).map (fun o => { o with row := p.row, col := p.col }) := by
  induction l generalizing i with
  | nil => simp [findIndex?] at hi
  | cons x xs ih =>
    by_cases hx : isPlayer x = true
    · have h0 : i = 0 := by simpa [findIndex?, hx] using hi.symm
      subst h0
      have hx2 : isPlayer { x with row := p.row, col := p.col } = true := by
        simpa [isPlayer] using hx
      simp [setPositionAt, List.find?, hx, hx2]
    · simp only [Bool.not_eq_true] at hx
      cases hj : findIndex? isPlayer xs with
      | none => simp [findIndex?, hx, hj] at hi
      | some j =>
        have h1 : i = j + 1 := by simpa [findIndex?, hx, hj] using hi.symm
        subst h1
        simp [setPositionAt, List.find?, hx, ih j hj]

theorem findIndex?_isPlayer_setPositionAt (l : List GameObject) (j : Nat) (p : Position) :
    findIndex? isPlayer (setPositionAt l j p) = findIndex? isPlayer l := by
  induction l generalizing j with
  | nil => rfl
  | cons x xs ih =>
    cases j with
    | zero =>
      have hx2 : isPlayer { x with row := p.row, col := p.col } = isPlayer x := rfl
      simp [setPositionAt, findIndex?, hx2]
    | succ j => simp [setPositionAt, findIndex?, ih j]

theorem length_setPositionAt (l : List GameObject) (i : Nat) (p : Position) :
    (setPositionAt l i p).length = l.length := by
  induction l generalizing i with
  | nil => rfl
  | cons x xs ih =>
    cases i with
    | zero => rfl
    | succ j => simp [setPositionAt, ih j]


/-! ## Lemmas on the deferred callbacks -/

theorem useCard_selectedCard (s : GameState) (cardId : String) :
    (useCard s cardId).selectedCard = s.selectedCard := by
  unfold useCard; split <;> rfl

theorem useCard_frame (s : GameState) (cardId : String) :
    (useCard s cardId).actionsRemaining = s.actionsRemaining ∧
    (useCard s cardId).playerArmor = s.playerArmor ∧
    (useCard s cardId).enemies = s.enemies ∧
    (useCard s cardId).gameObjects = s.gameObjects ∧
    (useCard s cardId).highlightedSquares = s.highlightedSquares ∧
    (useCard s cardId).deck = s.deck := by
  unfold useCard; split <;> simp

theorem endPlayerAction_clearSelection (s : GameState) :
    endPlayerAction (clearSelection s) =
      { s with selectedCard := none, highlightedSquares := [],
               actionsRemaining := s.actionsRemaining - 1 } := by
  simp [endPlayerAction, clearSelection]

theorem fire_actionsRemaining (s : GameState) (k : Continuation) :
    (fire s k).actionsRemaining = s.actionsRemaining - 1 := by
  unfold fire
  cases k.branch <;>
    simp only [fireReverse, fireUpgraded, firePlain, endPlayerAction_clearSelection] <;>
    (repeat' split) <;> simp [(useCard_frame _ _).1]


theorem fire_selectedCard (s : GameState) (k : Continuation) :
    (fire s k).selectedCard = none := by
  unfold fire
  cases k.branch <;>
    simp only [fireReverse, fireUpgraded, firePlain, endPlayerAction_clearSelection]

theorem fire_highlightedSquares (s : GameState) (k : Continuation) :
    (fire s k).highlightedSquares = [] := by
  unfold fire
  cases k.branch <;>
    simp only [fireReverse, fireUpgraded, firePlain, endPlayerAction_clearSelection]

theorem fire_playerArmor (s : GameState) (k : Continuation) :
    (fire s k).playerArmor = s.playerArmor + armorGain s.selectedCard := by
  unfold fire
  cases hsel : s.selectedCard with
  | none =>
    cases k.branch <;>
      simp only [fireReverse, fireUpgraded, firePlain, endPlayerAction_clearSelection] <;>
      (repeat' split) <;> simp_all [armorGain]
  | some card =>
    cases hup : card.upgrades with
    | none =>
      cases k.branch <;>
        simp only [fireReverse, fireUpgraded, firePlain, endPlayerAction_clearSelection] <;>
        (repeat' split) <;>
        simp_all [armorGain, Card.carries, useCard_selectedCard, (useCard_frame _ _).2.1]
    | some us =>
      cases k.branch <;>
        simp only [fireReverse, fireUpgraded, firePlain, endPlayerAction_clearSelection] <;>
        (repeat' split) <;>
        simp_all [armorGain, Card.carries, useCard_selectedCard, (useCard_frame _ _).2.1]

theorem fire_enemies (s : GameState) (k : Continuation) :
    (fire s k).enemies =
      if k.enemyIndex ≠ -1 then splice1 s.enemies k.enemyIndex else s.enemies := by
  unfold fire
  cases k.branch <;>
    simp only [fireReverse, fireUpgraded, firePlain, endPlayerAction_clearSelection] <;>
    (repeat' split) <;> simp_all [(useCard_frame _ _).2.2.1]

theorem fire_gameObjects (s : GameState) (k : Continuation) :
    (fire s k).gameObjects =
      if k.branch = Branch.reverse then
        setPositionAt s.gameObjects k.playerIndex k.startPosition
      else s.gameObjects := by
  unfold fire
  cases hb : k.branch <;>
    simp only [fireReverse, fireUpgraded, firePlain, endPlayerAction_clearSelection] <;>
    (repeat' split) <;> simp_all [(useCard_frame _ _).2.2.2.1]


/-! ## Lemmas on the click listener -/

theorem boardClick_of_not_accepted (s : GameState) (ev : ClickEvent)
    (h : commitAccepted s ev = false) : boardClick s ev = (s, none) := by
  unfold boardClick
  unfold commitAccepted at h
  cases hsq : ev.square with
  | none => simp
  | some sq =>
    cases hc : s.selectedCard with
    | none => simp
    | some card =>
      cases hg : ev.onGameObject with
      | true => simp
      | false =>
        simp only [hsq, hc, hg, Bool.not_false, Option.isSome_some, Bool.true_and,
          Bool.and_eq_false_iff] at h
        simp only [Bool.false_eq_true, if_false]
        rw [if_neg]
        simp only [Bool.and_eq_true, not_and, Bool.not_eq_true]
        intro hv
        rcases h with h | h
        · simp [hv] at h
        · exact h

theorem boardClick_of_accepted_noPlayer (s : GameState) (ev : ClickEvent)
    (h : commitAccepted s ev = true) (hp : s.gameObjects.find? isPlayer = none) :
    boardClick s ev = ({ s with highlightedSquares := [] }, none) := by
  unfold boardClick
  unfold commitAccepted at h
  cases hsq : ev.square with
  | none => simp [hsq] at h
  | some sq =>
    cases hc : s.selectedCard with
    | none => simp [hsq, hc] at h
    | some card =>
      cases hg : ev.onGameObject with
      | true => simp [hsq, hc, hg] at h
      | false =>
        simp only [hsq, hc, hg, Bool.not_false, Option.isSome_some, Bool.true_and,
          Bool.and_eq_true] at h
        simp [h.1, h.2, hp]

theorem boardClick_of_accepted_player (s : GameState) (ev : ClickEvent) (d : Position)
    (card : Card) (pl : GameObject)
    (h : commitAccepted s ev = true) (hsq : ev.square = some d)
    (hc : s.selectedCard = some card) (hp : s.gameObjects.find? isPlayer = some pl) :
    ∃ k : Continuation,
      boardClick s ev =
        ({ s with highlightedSquares := [],
                  gameObjects := setPositionAt s.gameObjects k.playerIndex d }, some k) ∧
      findIndex? isPlayer s.gameObjects = some k.playerIndex ∧
      k.enemyIndex = findIndex (enemyAt d) s.enemies ∧
      k.startPosition = { row := pl.row, col := pl.col } ∧
      (k.branch = Branch.reverse ↔ card.carries "reverse_1" = true) ∧
      (k.branch = Branch.plain ↔ card.upgrades = none) := by
  have hidx : (findIndex? isPlayer s.gameObjects).isSome = true := by
    rw [findIndex?_isSome_iff_find?, hp]; rfl
  obtain ⟨i, hi⟩ := Option.isSome_iff_exists.mp hidx
  unfold commitAccepted at h
  cases hg : ev.onGameObject with
  | true => simp [hsq, hc, hg] at h
  | false =>
    simp only [hsq, hc, hg, Bool.not_false, Option.isSome_some, Bool.true_and,
      Bool.and_eq_true] at h
    have hfun : (fun e : GameObject => e.row == d.row && e.col == d.col) = enemyAt d := rfl
    cases hup : card.upgrades with
    | none =>
      refine ⟨{ branch := .plain, enemyIndex := findIndex (enemyAt d) s.enemies,
                playerIndex := i, startPosition := { row := pl.row, col := pl.col },
                delay := 300 }, ?_, hi, rfl, rfl, ?_, ?_⟩
      · simp [boardClick, hsq, hc, hg, h.1, h.2, hp, hi, hup, hfun]
      · simp [Card.carries, hup]
      · simp
    | some us =>
      by_cases hr : hasUpgradeId us "reverse_1" = true
      · refine ⟨{ branch := .reverse, enemyIndex := findIndex (enemyAt d) s.enemies,
                  playerIndex := i, startPosition := { row := pl.row, col := pl.col },
                  delay := 300 }, ?_, hi, rfl, rfl, ?_, ?_⟩
        · simp [boardClick, hsq, hc, hg, h.1, h.2, hp, hi, hup, hfun, hr]
        · simp [Card.carries, hup, hr]
        · simp
      · refine ⟨{ branch := .upgraded, enemyIndex := findIndex (enemyAt d) s.enemies,
                  playerIndex := i, startPosition := { row := pl.row, col := pl.col },
                  delay := 30 }, ?_, hi, rfl, rfl, ?_, ?_⟩
        · simp [boardClick, hsq, hc, hg, h.1, h.2, hp, hi, hup, hfun, hr]
        · simp [Card.carries, hup, hr]
        · simp



theorem any_square_iff (hs : List Position) (p : Position) :
    hs.any (fun h => h.row == p.row && h.col == p.col) = true ↔ p ∈ hs := by
  simp only [List.any_eq_true, Bool.and_eq_true, beq_iff_eq]
  constructor
  · rintro ⟨h, hmem, hr, hc⟩
    have : h = p := by cases h; cases p; simp_all
    exact this ▸ hmem
  · intro hmem
    exact ⟨p, hmem, rfl, rfl⟩

theorem commitAccepted_eq_false_of (s : GameState) (p : Position) (g : Bool)
    (h : s.selectedCard = none ∨ p ∉ s.highlightedSquares ∨ s.actionsRemaining ≤ 0) :
    commitAccepted s { square := some p, onGameObject := g } = false := by
  unfold commitAccepted
  rcases h with h | h | h
  · simp [h]
  · have hv : s.highlightedSquares.any (fun h => h.row == p.row && h.col == p.col) = false := by
      rw [← Bool.not_eq_true, any_square_iff]; exact h
    simp [hv]
  · have : ¬ (s.actionsRemaining > 0) := by omega
    simp [this]

theorem commitAccepted_of_highlights_nil (s : GameState) (ev : ClickEvent)
    (h : s.highlightedSquares = []) : commitAccepted s ev = false := by
  unfold commitAccepted
  cases ev.square <;> simp [h]

theorem fire_eq_end_clear (s : GameState) (k : Continuation) :
    ∃ mid : GameState, fire s k = endPlayerAction (clearSelection mid) ∧
      mid.actionsRemaining = s.actionsRemaining := by
  unfold fire
  cases k.branch
  · refine ⟨_, rfl, ?_⟩
    (repeat' split) <;> simp [(useCard_frame _ _).1]
  · refine ⟨_, rfl, ?_⟩
    (repeat' split) <;> simp [(useCard_frame _ _).1]
  · refine ⟨_, rfl, ?_⟩
    (repeat' split) <;> simp [(useCard_frame _ _).1]

theorem resolve_of_accepted_player (s : GameState) (ev : ClickEvent) (d : Position)
    (card : Card) (pl : GameObject)
    (h : commitAccepted s ev = true) (hsq : ev.square = some d)
    (hc : s.selectedCard = some card) (hp : s.gameObjects.find? isPlayer = some pl) :
    ∃ k : Continuation,
      (boardClick s ev).2 = some k ∧
      resolve s ev =
        fire { s with highlightedSquares := [],
                      gameObjects := setPositionAt s.gameObjects k.playerIndex d } k ∧
      findIndex? isPlayer s.gameObjects = some k.playerIndex ∧
      k.enemyIndex = findIndex (enemyAt d) s.enemies ∧
      k.startPosition = { row := pl.row, col := pl.col } ∧
      (k.branch = Branch.reverse ↔ card.carries "reverse_1" = true) ∧
      (k.branch = Branch.plain ↔ card.upgrades = none) := by
  obtain ⟨k, hk, r⟩ := boardClick_of_accepted_player s ev d card pl h hsq hc hp
  refine ⟨k, by rw [hk], ?_, r⟩
  unfold resolve
  rw [hk]

theorem commitAccepted_cases (s : GameState) (ev : ClickEvent)
    (h : commitAccepted s ev = true) :
    ∃ d card, ev.square = some d ∧ s.selectedCard = some card ∧
      d ∈ s.highlightedSquares ∧ 0 < s.actionsRemaining := by
  unfold commitAccepted at h
  cases hsq : ev.square with
  | none => simp [hsq] at h
  | some sq =>
    cases hc : s.selectedCard with
    | none => simp [hsq, hc] at h
    | some card =>
      simp only [hsq, hc, Option.isSome_some, Bool.and_true, Bool.and_eq_true,
        decide_eq_true_eq] at h
      exact ⟨sq, card, rfl, rfl, (any_square_iff _ _).1 h.1.2, h.2⟩

/-! ## Properties of the specification, checked against the code -/

/-- C1 (code bug). A commit of a card whose only upgrade is `stamina_1`, made
with one action left, ends with no action left: the callback runs
`clearSelection` before `endPlayerAction`, so the stamina test never sees the
card and the decrement is not cancelled. -/
theorem C1_stamina_commit_consumes_the_action :
    commitAccepted staminaState (clickAt { row := 1, col := 2 }) = true ∧
    staminaState.selectedCard = some staminaCard ∧
    staminaCard.upgrades = some [{ id := "stamina_1" }] ∧
    (staminaState.gameObjects.find? isPlayer).isSome = true ∧
    staminaState.actionsRemaining = 1 ∧
    (resolve staminaState (clickAt { row := 1, col := 2 })).actionsRemaining = 0 := by
  decide

/-- C2. A click on a square is a no-op of the commit handler when no card is
selected, or the square is not in `highlightedSquares`, or `actionsRemaining`
is not positive: the whole game state is returned unchanged and no
continuation is scheduled, so the world with its pending timers is unchanged. -/
theorem C2_rejected_commit_is_noop (s : GameState) (p : Position) (onGameObject : Bool)
    (h : s.selectedCard = none ∨ p ∉ s.highlightedSquares ∨ s.actionsRemaining ≤ 0) :
    boardClick s { square := some p, onGameObject := onGameObject } = (s, none) ∧
    ∀ (cvm : MoveRule) (pending : List Continuation),
      step cvm { state := s, pending := pending }
        (.commitDestination { square := some p, onGameObject := onGameObject }) =
      { state := s, pending := pending } := by
  have hb := boardClick_of_not_accepted s _ (commitAccepted_eq_false_of s p onGameObject h)
  refine ⟨hb, ?_⟩
  intro cvm pending
  simp [step, hb]

/-- Witness of C2: with the stamina card selected, a click on (5,5), which is
not highlighted, changes nothing. -/
theorem C2_rejected_commit_is_noop_witness :
    ({ row := 5, col := 5 } : Position) ∉ staminaState.highlightedSquares ∧
    boardClick staminaState { square := some { row := 5, col := 5 }, onGameObject := false } =
      (staminaState, none) :=
  ⟨by decide,
   (C2_rejected_commit_is_noop staminaState { row := 5, col := 5 } false
      (Or.inr (Or.inl (by decide)))).1⟩

/-- Counterexample to C3 as stated: in a state without a player object an
accepted commit clears `highlightedSquares`, schedules nothing, and leaves
`actionsRemaining` and `selectedCard` as they were. -/
theorem C3_counterexample_no_player :
    commitAccepted noPlayerState (clickAt { row := 1, col := 2 }) = true ∧
    (boardClick noPlayerState (clickAt { row := 1, col := 2 })).2 = none ∧
    (resolve noPlayerState (clickAt { row := 1, col := 2 })).highlightedSquares ≠
      noPlayerState.highlightedSquares ∧
    (resolve noPlayerState (clickAt { row := 1, col := 2 })).actionsRemaining =
      noPlayerState.actionsRemaining ∧
    (resolve noPlayerState (clickAt { row := 1, col := 2 })).selectedCard =
      noPlayerState.selectedCard := by
  decide

/-- C3 (amended). For an accepted commit in a state that holds a player object
exactly one continuation is scheduled and the resolution ends with
`clearSelection` followed by `endPlayerAction`, applied to a state whose
`actionsRemaining` is still the value at commit time: `selectedCard` ends
cleared and `actionsRemaining` one lower. Without a player object the accepted
commit only clears `highlightedSquares` and schedules nothing. -/
theorem C3_accepted_commit_resolution (s : GameState) (ev : ClickEvent)
    (h : commitAccepted s ev = true) :
    ((s.gameObjects.find? isPlayer).isSome = true →
      ∃ (k : Continuation) (mid : GameState),
        (boardClick s ev).2 = some k ∧
        resolve s ev = endPlayerAction (clearSelection mid) ∧
        mid.actionsRemaining = s.actionsRemaining ∧
        (resolve s ev).selectedCard = none ∧
        (resolve s ev).actionsRemaining = s.actionsRemaining - 1) ∧
    (s.gameObjects.find? isPlayer = none →
      boardClick s ev = ({ s with highlightedSquares := [] }, none) ∧
      resolve s ev = { s with highlightedSquares := [] }) := by
  constructor
  · intro hp
    obtain ⟨pl, hpl⟩ := Option.isSome_iff_exists.mp hp
    obtain ⟨d, card, hsq, hc, -, -⟩ := commitAccepted_cases s ev h
    obtain ⟨k, hk, hres, -⟩ := resolve_of_accepted_player s ev d card pl h hsq hc hpl
    obtain ⟨mid, hmid, hact⟩ := fire_eq_end_clear
      { s with highlightedSquares := [],
               gameObjects := setPositionAt s.gameObjects k.playerIndex d } k
    refine ⟨k, mid, hk, by rw [hres, hmid], hact, ?_, ?_⟩
    · rw [hres, fire_selectedCard]
    · rw [hres, fire_actionsRemaining]
  · intro hp
    have hb := boardClick_of_accepted_noPlayer s ev h hp
    refine ⟨hb, ?_⟩
    unfold resolve
    rw [hb]

/-- Witness of C3 (amended): the commit of the card without upgrades to (1,2)
from the start position. -/
theorem C3_accepted_commit_resolution_witness :
    commitAccepted plainState (clickAt { row := 1, col := 2 }) = true ∧
    (plainState.gameObjects.find? isPlayer).isSome = true ∧
    (resolve plainState (clickAt { row := 1, col := 2 })).selectedCard = none ∧
    (resolve plainState (clickAt { row := 1, col := 2 })).actionsRemaining =
      plainState.actionsRemaining - 1 :=
  ⟨by decide, by decide,
   by
    obtain ⟨_, _, _, _, _, h4, _⟩ :=
      (C3_accepted_commit_resolution plainState (clickAt { row := 1, col := 2 })
        (by decide)).1 (by decide)
    exact h4,
   by
    obtain ⟨_, _, _, _, _, _, h5⟩ :=
      (C3_accepted_commit_resolution plainState (clickAt { row := 1, col := 2 })
        (by decide)).1 (by decide)
    exact h5⟩


theorem boardClick_highlights_of_accepted (s : GameState) (ev : ClickEvent)
    (h : commitAccepted s ev = true) : (boardClick s ev).1.highlightedSquares = [] := by
  cases hp : s.gameObjects.find? isPlayer with
  | none => rw [boardClick_of_accepted_noPlayer s ev h hp]
  | some pl =>
    obtain ⟨d, card, hsq, hc, -, -⟩ := commitAccepted_cases s ev h
    obtain ⟨k, hk, -⟩ := boardClick_of_accepted_player s ev d card pl h hsq hc hp
    rw [hk]

theorem run_commits_of_highlights_nil (cvm : MoveRule) (w : World)
    (h : w.state.highlightedSquares = []) (evs : List ClickEvent) :
    run cvm w (evs.map Step.commitDestination) = w := by
  induction evs with
  | nil => rfl
  | cons ev evs ih =>
    have hb := boardClick_of_not_accepted w.state ev (commitAccepted_of_highlights_nil _ ev h)
    have hstep : step cvm w (.commitDestination ev) = w := by
      simp [step, hb]
    simpa [run, List.foldl, hstep] using ih

theorem handleCardSelection_of_not_found (cvm : MoveRule) (s : GameState) (id : String)
    (h : ∀ c ∈ s.hand, c.card_id ≠ id) :
    handleCardSelection cvm s id =
      { s with actionsRemaining := if s.actionsRemaining ≤ 0 then 1 else s.actionsRemaining } := by
  have hfind : s.hand.find? (fun c => c.card_id == id) = none := by
    rw [List.find?_eq_none]
    intro c hc
    simpa using h c hc
  unfold handleCardSelection
  by_cases ha : s.actionsRemaining ≤ 0
  · simp [ha, hfind]
  · simp [ha, hfind]

/-- Counterexample to C4 as stated: while the timer of a first accepted commit
is still pending, a card selection repopulates `highlightedSquares`, and a
second commit is then accepted: it moves the player from (1,2) to (2,4),
empties `highlightedSquares` again and raises the number of pending
continuations from 1 to 2. -/
theorem C4_counterexample_commit_while_pending :
    worldAfterCommit.pending.length = 1 ∧
    worldAfterReselect.pending.length = 1 ∧
    worldAfterReselect.state.highlightedSquares ≠ [] ∧
    playerPosition worldAfterReselect.state = some { row := 1, col := 2 } ∧
    commitAccepted worldAfterReselect.state (clickAt { row := 2, col := 4 }) = true ∧
    worldAfterSecondCommit.pending.length = 2 ∧
    worldAfterSecondCommit.state.highlightedSquares = [] ∧
    playerPosition worldAfterSecondCommit.state = some { row := 2, col := 4 } := by
  decide

/-- C4 (amended). After an accepted commit `highlightedSquares` is empty, and
every sequence of commit-destination steps taken with no select-card step
among them is rejected: the game state, and with it the player position, and
the list of pending continuations stay exactly as the accepted commit left
them. -/
theorem C4_commits_rejected_until_next_selection (cvm : MoveRule) (w : World)
    (ev : ClickEvent) (h : commitAccepted w.state ev = true) (evs : List ClickEvent) :
    (step cvm w (.commitDestination ev)).state.highlightedSquares = [] ∧
    run cvm (step cvm w (.commitDestination ev)) (evs.map Step.commitDestination) =
      step cvm w (.commitDestination ev) := by
  have hnil : (step cvm w (.commitDestination ev)).state.highlightedSquares = [] := by
    simpa [step] using boardClick_highlights_of_accepted w.state ev h
  exact ⟨hnil, run_commits_of_highlights_nil cvm _ hnil evs⟩

/-- Witness of C4 (amended): after the first commit of the scenario, two more
clicks on squares change nothing. -/
theorem C4_commits_rejected_until_next_selection_witness :
    commitAccepted plainState (clickAt { row := 1, col := 2 }) = true ∧
    run knightMoves
      (step knightMoves { state := plainState, pending := [] }
        (.commitDestination (clickAt { row := 1, col := 2 })))
      ([clickAt { row := 2, col := 4 }, clickAt { row := 0, col := 0 }].map
        Step.commitDestination) =
    step knightMoves { state := plainState, pending := [] }
      (.commitDestination (clickAt { row := 1, col := 2 })) :=
  ⟨by decide,
   (C4_commits_rejected_until_next_selection knightMoves
      { state := plainState, pending := [] } (clickAt { row := 1, col := 2 }) (by decide)
      [clickAt { row := 2, col := 4 }, clickAt { row := 0, col := 0 }]).2⟩

/-- Counterexample to C5 as stated: with no action left, selecting an id that
is not in hand changes the state, it sets `actionsRemaining` to 1. -/
theorem C5_counterexample_reset_on_unknown_id :
    (∀ c ∈ exhaustedState.hand, c.card_id ≠ "nope") ∧
    exhaustedState.actionsRemaining = 0 ∧
    handleCardSelection knightMoves exhaustedState "nope" ≠ exhaustedState ∧
    (handleCardSelection knightMoves exhaustedState "nope").actionsRemaining = 1 := by
  decide

/-- C5 (amended). For an id that matches no `card_id` in hand,
`handleCardSelection` changes no field other than `actionsRemaining`, which it
sets to 1 when it was not positive and keeps otherwise; so with
`actionsRemaining > 0` the entire game state is unchanged. -/
theorem C5_unknown_id_only_resets_actions (cvm : MoveRule) (s : GameState) (id : String)
    (h : ∀ c ∈ s.hand, c.card_id ≠ id) :
    handleCardSelection cvm s id =
      { s with actionsRemaining := if s.actionsRemaining ≤ 0 then 1 else s.actionsRemaining } ∧
    (0 < s.actionsRemaining → handleCardSelection cvm s id = s) := by
  have hn := handleCardSelection_of_not_found cvm s id h
  refine ⟨hn, ?_⟩
  intro hpos
  have : ¬ s.actionsRemaining ≤ 0 := by omega
  rw [hn]
  simp [this]

/-- Witness of C5 (amended): an unknown id at the start of a turn. -/
theorem C5_unknown_id_only_resets_actions_witness :
    (∀ c ∈ startState.hand, c.card_id ≠ "nope") ∧ 0 < startState.actionsRemaining ∧
    handleCardSelection knightMoves startState "nope" = startState :=
  ⟨by decide, by decide,
   (C5_unknown_id_only_resets_actions knightMoves startState "nope" (by decide)).2
     (by decide)⟩


theorem findIndex_splice1_eq_eraseP {α : Type} (p : α → Bool) (l : List α) :
    (if findIndex p l ≠ -1 then splice1 l (findIndex p l) else l) = l.eraseP p := by
  have key : ∀ l : List α,
      (match findIndex? p l with
        | some i => l.eraseIdx i
        | none => l) = l.eraseP p := by
    intro l
    induction l with
    | nil => rfl
    | cons x xs ih =>
      by_cases hx : p x = true
      · simp [findIndex?, hx, List.eraseP_cons_of_pos]
      · simp only [Bool.not_eq_true] at hx
        cases hj : findIndex? p xs with
        | none =>
          rw [hj] at ih
          simp [findIndex?, hx, hj, List.eraseP_cons_of_neg, ← ih]
        | some j =>
          rw [hj] at ih
          simp [findIndex?, hx, hj, List.eraseP_cons_of_neg, ← ih]
  rw [← key l]
  unfold findIndex
  cases hj : findIndex? p l with
  | none => simp
  | some j =>
    have h1 : ((j : Int) ≠ -1) := by omega
    simp [h1, splice1]

theorem eraseP_no_match_of_unique {α : Type} (p : α → Bool) (l : List α)
    (h : (l.filter p).length ≤ 1) : ∀ e ∈ l.eraseP p, p e = false := by
  induction l with
  | nil => intro e he; simp at he
  | cons x xs ih =>
    by_cases hx : p x = true
    · intro e he
      rw [List.eraseP_cons_of_pos hx] at he
      have hlen : (xs.filter p).length = 0 := by
        simp [List.filter_cons, hx] at h
        simpa using h
      have hnil : xs.filter p = [] := List.length_eq_zero.mp hlen
      rw [List.filter_eq_nil_iff] at hnil
      simpa using hnil e he
    · have hx2 : p x = false := by simpa using hx
      intro e he
      rw [List.eraseP_cons_of_neg hx] at he
      rcases List.mem_cons.mp he with rfl | he
      · exact hx2
      · refine ih ?_ e he
        simpa [List.filter_cons, hx2] using h

theorem playerPosition_after_set (l : List GameObject) (i : Nat) (p : Position)
    (hi : findIndex? isPlayer l = some i) :
    ((setPositionAt l i p).find? isPlayer).map
      (fun o => ({ row := o.row, col := o.col } : Position)) = some p := by
  rw [find?_isPlayer_setPositionAt l i p hi]
  have hs : (l.find? isPlayer).isSome = true := by
    rw [← findIndex?_isSome_iff_find?, hi]; rfl
  obtain ⟨pl, hpl⟩ := Option.isSome_iff_exists.mp hs
  simp [hpl]

/-- Summary of a full resolution of an accepted commit with a player present. -/
theorem resolve_summary (s : GameState) (ev : ClickEvent) (d o : Position) (card : Card)
    (h : commitAccepted s ev = true) (hsq : ev.square = some d)
    (hc : s.selectedCard = some card) (ho : playerPosition s = some o) :
    playerPosition (resolve s ev) = some (if card.carries "reverse_1" then o else d) ∧
    (resolve s ev).enemies = s.enemies.eraseP (enemyAt d) ∧
    (resolve s ev).playerArmor = s.playerArmor + (if card.carries "armor_1" then 1 else 0) ∧
    (resolve s ev).actionsRemaining = s.actionsRemaining - 1 ∧
    (resolve s ev).selectedCard = none ∧
    (resolve s ev).highlightedSquares = [] := by
  unfold playerPosition at ho
  cases hp : s.gameObjects.find? isPlayer with
  | none => simp [hp] at ho
  | some pl =>
    have hpo : ({ row := pl.row, col := pl.col } : Position) = o := by
      simpa [hp] using ho
    obtain ⟨k, -, hres, hidx, hen, hstart, hrev, -⟩ :=
      resolve_of_accepted_player s ev d card pl h hsq hc hp
    refine ⟨?_, ?_, ?_, ?_, ?_, ?_⟩
    · unfold playerPosition
      rw [hres, fire_gameObjects]
      by_cases hr : card.carries "reverse_1" = true
      · have hb : k.branch = Branch.reverse := hrev.2 hr
        simp only [hb, if_true, hr]
        rw [hstart, hpo]
        apply playerPosition_after_set
        rw [findIndex?_isPlayer_setPositionAt]
        exact hidx
      · have hb : ¬ k.branch = Branch.reverse := fun hb => hr (hrev.1 hb)
        simp only [hb, if_false, hr]
        exact playerPosition_after_set _ _ _ hidx
    · rw [hres, fire_enemies, hen]
      exact findIndex_splice1_eq_eraseP (enemyAt d) s.enemies
    · rw [hres, fire_playerArmor]
      simp [armorGain, hc]
    · rw [hres, fire_actionsRemaining]
    · rw [hres, fire_selectedCard]
    · rw [hres, fire_highlightedSquares]


theorem carries_of_no_upgrades (card : Card) (id : String)
    (hup : card.upgrades = none ∨ card.upgrades = some []) : card.carries id = false := by
  rcases hup with hup | hup <;> simp [Card.carries, hup, hasUpgradeId]

/-- C6. An accepted commit of a card carrying `reverse_1`, with the player at
`o` and destination `d`: after the full resolution the player is back at `o`,
the first enemy on `d` has been removed (so none is left on `d` when at most
one stood there), `playerArmor` has grown by exactly 1 if the card carries
`armor_1` and is unchanged otherwise, and without `stamina_1`
`actionsRemaining` is one lower. -/
theorem C6_reverse_commit_restores_origin (s : GameState) (ev : ClickEvent)
    (d o : Position) (card : Card)
    (h : commitAccepted s ev = true) (hsq : ev.square = some d)
    (hc : s.selectedCard = some card) (hrev : card.carries "reverse_1" = true)
    (ho : playerPosition s = some o) :
    playerPosition (resolve s ev) = some o ∧
    (resolve s ev).enemies = s.enemies.eraseP (enemyAt d) ∧
    ((s.enemies.filter (enemyAt d)).length ≤ 1 →
      ∀ e ∈ (resolve s ev).enemies, enemyAt d e = false) ∧
    (resolve s ev).playerArmor = s.playerArmor + (if card.carries "armor_1" then 1 else 0) ∧
    (card.carries "stamina_1" = false →
      (resolve s ev).actionsRemaining = s.actionsRemaining - 1) := by
  obtain ⟨hpos, hen, harm, hact, -, -⟩ := resolve_summary s ev d o card h hsq hc ho
  refine ⟨by simpa [hrev] using hpos, hen, ?_, harm, fun _ => hact⟩
  intro huniq
  rw [hen]
  exact eraseP_no_match_of_unique _ _ huniq

/-- Witness of C6: player on (2,2), upgrades `reverse_1` and `armor_1`, commit
to (3,0), which holds an enemy. -/
theorem C6_reverse_commit_restores_origin_witness :
    commitAccepted reverseState (clickAt { row := 3, col := 0 }) = true ∧
    reverseState.selectedCard = some reverseArmorCard ∧
    reverseArmorCard.carries "reverse_1" = true ∧
    playerPosition reverseState = some { row := 2, col := 2 } ∧
    reverseState.enemies = [{ type := "enemy", row := 3, col := 0 }] ∧
    playerPosition (resolve reverseState (clickAt { row := 3, col := 0 })) =
      some { row := 2, col := 2 } ∧
    (resolve reverseState (clickAt { row := 3, col := 0 })).enemies =
      reverseState.enemies.eraseP (enemyAt { row := 3, col := 0 }) ∧
    (resolve reverseState (clickAt { row := 3, col := 0 })).playerArmor =
      reverseState.playerArmor + (if reverseArmorCard.carries "armor_1" then 1 else 0) :=
  have hw := C6_reverse_commit_restores_origin reverseState (clickAt { row := 3, col := 0 })
    { row := 3, col := 0 } { row := 2, col := 2 } reverseArmorCard
    (by decide) rfl (by decide) (by decide) (by decide)
  ⟨by decide, by decide, by decide, by decide, by decide, hw.1, hw.2.1, hw.2.2.2.1⟩

/-- C7. An accepted commit of a card without upgrades (the field absent or
empty), with the player at `o` and destination `d`: after the full resolution
the player stands on `d`, the first enemy on `d` has been removed (so none is
left on `d` when at most one stood there), `playerArmor` is unchanged,
`selectedCard` is none, `highlightedSquares` is empty and `actionsRemaining`
is one lower. -/
theorem C7_plain_commit_moves_and_captures (s : GameState) (ev : ClickEvent)
    (d o : Position) (card : Card)
    (h : commitAccepted s ev = true) (hsq : ev.square = some d)
    (hc : s.selectedCard = some card)
    (hup : card.upgrades = none ∨ card.upgrades = some [])
    (ho : playerPosition s = some o) :
    playerPosition (resolve s ev) = some d ∧
    (resolve s ev).enemies = s.enemies.eraseP (enemyAt d) ∧
    ((s.enemies.filter (enemyAt d)).length ≤ 1 →
      ∀ e ∈ (resolve s ev).enemies, enemyAt d e = false) ∧
    (resolve s ev).playerArmor = s.playerArmor ∧
    (resolve s ev).selectedCard = none ∧
    (resolve s ev).highlightedSquares = [] ∧
    (resolve s ev).actionsRemaining = s.actionsRemaining - 1 := by
  obtain ⟨hpos, hen, harm, hact, hsel, hhl⟩ := resolve_summary s ev d o card h hsq hc ho
  have hr := carries_of_no_upgrades card "reverse_1" hup
  have ha := carries_of_no_upgrades card "armor_1" hup
  refine ⟨by simpa [hr] using hpos, hen, ?_, by simpa [ha] using harm, hsel, hhl, hact⟩
  intro huniq
  rw [hen]
  exact eraseP_no_match_of_unique _ _ huniq

/-- Witness of C7: player on (0,0), enemy on (1,2), commit to (1,2). -/
theorem C7_plain_commit_moves_and_captures_witness :
    commitAccepted plainState (clickAt { row := 1, col := 2 }) = true ∧
    plainState.selectedCard = some plainCard ∧
    playerPosition plainState = some { row := 0, col := 0 } ∧
    plainState.enemies = [{ type := "enemy", row := 1, col := 2 }] ∧
    playerPosition (resolve plainState (clickAt { row := 1, col := 2 })) =
      some { row := 1, col := 2 } ∧
    (resolve plainState (clickAt { row := 1, col := 2 })).enemies =
      plainState.enemies.eraseP (enemyAt { row := 1, col := 2 }) ∧
    (resolve plainState (clickAt { row := 1, col := 2 })).playerArmor =
      plainState.playerArmor ∧
    (resolve plainState (clickAt { row := 1, col := 2 })).actionsRemaining =
      plainState.actionsRemaining - 1 :=
  have hw := C7_plain_commit_moves_and_captures plainState (clickAt { row := 1, col := 2 })
    { row := 1, col := 2 } { row := 0, col := 0 } plainCard
    (by decide) rfl (by decide) (Or.inl rfl) (by decide)
  ⟨by decide, by decide, by decide, by decide, hw.1, hw.2.1, hw.2.2.2.1, hw.2.2.2.2.2.2⟩


theorem handleCardSelection_of_found (cvm : MoveRule) (s : GameState) (id : String)
    (card : Card) (h : s.hand.find? (fun c => c.card_id == id) = some card) :
    handleCardSelection cvm s id =
      { s with
        actionsRemaining := if s.actionsRemaining ≤ 0 then 1 else s.actionsRemaining
        selectedCard := some card
        highlightedSquares :=
          match playerPosition s with
          | some p => cvm p card
          | none => [] } := by
  unfold handleCardSelection playerPosition
  by_cases ha : s.actionsRemaining ≤ 0
  · cases hp : s.gameObjects.find? isPlayer <;> simp [ha, h, hp]
  · cases hp : s.gameObjects.find? isPlayer <;> simp [ha, h, hp]

theorem handleCardSelection_actionsRemaining (cvm : MoveRule) (s : GameState) (id : String) :
    (handleCardSelection cvm s id).actionsRemaining =
      if s.actionsRemaining ≤ 0 then 1 else s.actionsRemaining := by
  cases hf : s.hand.find? (fun c => c.card_id == id) with
  | none =>
    have hn : ∀ c ∈ s.hand, c.card_id ≠ id := by
      intro c hc
      simpa using List.find?_eq_none.mp hf c hc
    rw [handleCardSelection_of_not_found cvm s id hn]
  | some card => rw [handleCardSelection_of_found cvm s id card hf]

theorem foldl_handleCardSelection_actions (cvm : MoveRule) (ids : List String)
    (s : GameState) (h : s.actionsRemaining = 1) :
    (ids.foldl (handleCardSelection cvm) s).actionsRemaining = 1 := by
  induction ids generalizing s with
  | nil => exact h
  | cons id ids ih =>
    apply ih
    rw [handleCardSelection_actionsRemaining, h]
    simp

theorem find?_card_id_of_mem (hand : List Card) (id : String)
    (h : ∃ c ∈ hand, c.card_id = id) :
    ∃ card, hand.find? (fun c => c.card_id == id) = some card ∧ card.card_id = id := by
  cases hf : hand.find? (fun c => c.card_id == id) with
  | none =>
    obtain ⟨c, hc, hid⟩ := h
    have := List.find?_eq_none.mp hf c hc
    simp [hid] at this
  | some card =>
    have := List.find?_some hf
    exact ⟨card, rfl, by simpa using this⟩

/-- C8. With `actionsRemaining <= 0` and an id present in hand,
`handleCardSelection` sets `actionsRemaining` to exactly 1 and selects as it
would with one action left: `selectedCard` becomes the first hand card with
that id and `highlightedSquares` is recomputed from the player position.
Any number of further selections keeps `actionsRemaining` at 1, and with
`actionsRemaining > 0` a selection leaves `actionsRemaining` unchanged. -/
theorem C8_selection_resets_exhausted_turn (cvm : MoveRule) (s : GameState) (id : String) :
    (s.actionsRemaining ≤ 0 → (∃ c ∈ s.hand, c.card_id = id) →
      (handleCardSelection cvm s id).actionsRemaining = 1 ∧
      handleCardSelection cvm s id =
        handleCardSelection cvm { s with actionsRemaining := 1 } id ∧
      (∃ card, s.hand.find? (fun c => c.card_id == id) = some card ∧ card.card_id = id ∧
        (handleCardSelection cvm s id).selectedCard = some card ∧
        (handleCardSelection cvm s id).highlightedSquares =
          match playerPosition s with
          | some p => cvm p card
          | none => []) ∧
      ∀ ids : List String,
        (ids.foldl (handleCardSelection cvm) (handleCardSelection cvm s id)).actionsRemaining
          = 1) ∧
    (0 < s.actionsRemaining →
      (handleCardSelection cvm s id).actionsRemaining = s.actionsRemaining) := by
  constructor
  · intro ha hmem
    obtain ⟨card, hf, hid⟩ := find?_card_id_of_mem s.hand id hmem
    have h1 : (handleCardSelection cvm s id).actionsRemaining = 1 := by
      rw [handleCardSelection_actionsRemaining]; simp [ha]
    refine ⟨h1, ?_, ⟨card, hf, hid, ?_, ?_⟩, ?_⟩
    · rw [handleCardSelection_of_found cvm s id card hf,
        handleCardSelection_of_found cvm { s with actionsRemaining := 1 } id card hf]
      simp [ha, playerPosition]
    · rw [handleCardSelection_of_found cvm s id card hf]
    · rw [handleCardSelection_of_found cvm s id card hf]
    · intro ids
      exact foldl_handleCardSelection_actions cvm ids _ h1
  · intro hpos
    have : ¬ s.actionsRemaining ≤ 0 := by omega
    rw [handleCardSelection_actionsRemaining]
    simp [this]

/-- Witness of C8: selecting a hand card with no action left, then selecting
twice more. -/
theorem C8_selection_resets_exhausted_turn_witness :
    exhaustedState.actionsRemaining ≤ 0 ∧ (∃ c ∈ exhaustedState.hand, c.card_id = "c1") ∧
    (handleCardSelection knightMoves exhaustedState "c1").actionsRemaining = 1 ∧
    (["c0", "nope"].foldl (handleCardSelection knightMoves)
      (handleCardSelection knightMoves exhaustedState "c1")).actionsRemaining = 1 :=
  have hw := (C8_selection_resets_exhausted_turn knightMoves exhaustedState "c1").1
    (by decide) ⟨staminaCard, by decide, rfl⟩
  ⟨by decide, ⟨staminaCard, by decide, rfl⟩, hw.1, hw.2.2.2 ["c0", "nope"]⟩

/-- C9. For an id that matches no `card_id` in hand, `handleCardSelection`
leaves `selectedCard` and `highlightedSquares` exactly as they were. -/
theorem C9_unknown_id_keeps_selection (cvm : MoveRule) (s : GameState) (id : String)
    (h : ∀ c ∈ s.hand, c.card_id ≠ id) :
    (handleCardSelection cvm s id).selectedCard = s.selectedCard ∧
    (handleCardSelection cvm s id).highlightedSquares = s.highlightedSquares := by
  rw [handleCardSelection_of_not_found cvm s id h]
  exact ⟨rfl, rfl⟩

/-- Witness of C9: with the stamina card selected and its squares highlighted,
an unknown id keeps both. -/
theorem C9_unknown_id_keeps_selection_witness :
    (∀ c ∈ staminaState.hand, c.card_id ≠ "nope") ∧
    staminaState.selectedCard = some staminaCard ∧
    (handleCardSelection knightMoves staminaState "nope").selectedCard =
      staminaState.selectedCard ∧
    (handleCardSelection knightMoves staminaState "nope").highlightedSquares =
      staminaState.highlightedSquares :=
  have hw := C9_unknown_id_keeps_selection knightMoves staminaState "nope" (by decide)
  ⟨by decide, by decide, hw.1, hw.2⟩


theorem handleCardSelection_playerArmor (cvm : MoveRule) (s : GameState) (id : String) :
    (handleCardSelection cvm s id).playerArmor = s.playerArmor := by
  cases hf : s.hand.find? (fun c => c.card_id == id) with
  | none =>
    have hn : ∀ c ∈ s.hand, c.card_id ≠ id := by
      intro c hc
      simpa using List.find?_eq_none.mp hf c hc
    rw [handleCardSelection_of_not_found cvm s id hn]
  | some card => rw [handleCardSelection_of_found cvm s id card hf]

theorem boardClick_playerArmor (s : GameState) (ev : ClickEvent) :
    (boardClick s ev).1.playerArmor = s.playerArmor := by
  cases h : commitAccepted s ev with
  | false => rw [boardClick_of_not_accepted s ev h]
  | true =>
    cases hp : s.gameObjects.find? isPlayer with
    | none => rw [boardClick_of_accepted_noPlayer s ev h hp]
    | some pl =>
      obtain ⟨d, card, hsq, hc, -, -⟩ := commitAccepted_cases s ev h
      obtain ⟨k, hk, -⟩ := boardClick_of_accepted_player s ev d card pl h hsq hc hp
      rw [hk]

theorem armorGain_nonneg (sel : Option Card) : 0 ≤ armorGain sel := by
  unfold armorGain
  split
  · split <;> decide
  · decide

theorem step_playerArmor_le (cvm : MoveRule) (w : World) (st : Step) :
    w.state.playerArmor ≤ (step cvm w st).state.playerArmor := by
  cases st with
  | selectCard id => simp [step, handleCardSelection_playerArmor]
  | commitDestination ev => simp [step, boardClick_playerArmor]
  | fireContinuation i =>
    simp only [step]
    split
    · simp only [fire_playerArmor]
      have := armorGain_nonneg w.state.selectedCard
      omega
    · exact le_refl _

theorem run_playerArmor_le (cvm : MoveRule) (steps : List Step) (w : World) :
    w.state.playerArmor ≤ (run cvm w steps).state.playerArmor := by
  induction steps generalizing w with
  | nil => exact le_refl _
  | cons st steps ih =>
    exact le_trans (step_playerArmor_le cvm w st) (ih (step cvm w st))

theorem fire_branch_playerArmor (s : GameState) (k : Continuation) :
    (fireReverse s k).playerArmor = s.playerArmor + armorGain s.selectedCard ∧
    (fireUpgraded s k).playerArmor = s.playerArmor + armorGain s.selectedCard ∧
    (firePlain s k).playerArmor = s.playerArmor + armorGain s.selectedCard := by
  have h1 := fire_playerArmor s { k with branch := .reverse }
  have h2 := fire_playerArmor s { k with branch := .upgraded }
  have h3 := fire_playerArmor s { k with branch := .plain }
  exact ⟨h1, h2, h3⟩

theorem endPlayerAction_playerArmor (s : GameState) :
    (endPlayerAction s).playerArmor = s.playerArmor := by
  simp only [endPlayerAction]
  (repeat' split) <;> rfl

/-- C10. For an accepted commit with a player present, `playerArmor` after the
full resolution is the value before plus 1 if the committed card carries
`armor_1` (never more than 1) and plus 0 otherwise; each of the three
callbacks adds exactly that amount for the card it finds selected;
`handleCardSelection`, rejected commits and `endPlayerAction` leave
`playerArmor` unchanged; and along every sequence of select, commit and timer
steps `playerArmor` never decreases. -/
theorem C10_armor_gain_and_monotonicity :
    (∀ (s : GameState) (ev : ClickEvent) (card : Card),
      commitAccepted s ev = true → s.selectedCard = some card →
      (s.gameObjects.find? isPlayer).isSome = true →
      (resolve s ev).playerArmor =
        s.playerArmor + (if card.carries "armor_1" then 1 else 0)) ∧
    (∀ (s : GameState) (k : Continuation),
      (fireReverse s k).playerArmor = s.playerArmor + armorGain s.selectedCard ∧
      (fireUpgraded s k).playerArmor = s.playerArmor + armorGain s.selectedCard ∧
      (firePlain s k).playerArmor = s.playerArmor + armorGain s.selectedCard) ∧
    (∀ (cvm : MoveRule) (s : GameState) (id : String),
      (handleCardSelection cvm s id).playerArmor = s.playerArmor) ∧
    (∀ (s : GameState) (ev : ClickEvent), commitAccepted s ev = false →
      (resolve s ev).playerArmor = s.playerArmor) ∧
    (∀ s : GameState, (endPlayerAction s).playerArmor = s.playerArmor) ∧
    (∀ (cvm : MoveRule) (w : World) (steps : List Step),
      w.state.playerArmor ≤ (run cvm w steps).state.playerArmor) := by
  refine ⟨?_, fire_branch_playerArmor, handleCardSelection_playerArmor, ?_,
    endPlayerAction_playerArmor, fun cvm w steps => run_playerArmor_le cvm steps w⟩
  · intro s ev card h hc hp
    obtain ⟨pl, hpl⟩ := Option.isSome_iff_exists.mp hp
    obtain ⟨d, card2, hsq, hc2, -, -⟩ := commitAccepted_cases s ev h
    have ho : playerPosition s = some { row := pl.row, col := pl.col } := by
      simp [playerPosition, hpl]
    exact (resolve_summary s ev d _ card h hsq hc ho).2.2.1
  · intro s ev h
    unfold resolve
    rw [boardClick_of_not_accepted s ev h]

/-- Witness of C10: the commit of the card with `reverse_1` and `armor_1`
raises `playerArmor` from 0 to 1. -/
theorem C10_armor_gain_and_monotonicity_witness :
    commitAccepted reverseState (clickAt { row := 3, col := 0 }) = true ∧
    reverseState.selectedCard = some reverseArmorCard ∧
    (reverseState.gameObjects.find? isPlayer).isSome = true ∧
    (resolve reverseState (clickAt { row := 3, col := 0 })).playerArmor =
      reverseState.playerArmor + (if reverseArmorCard.carries "armor_1" then 1 else 0) :=
  ⟨by decide, by decide, by decide,
   C10_armor_gain_and_monotonicity.1 reverseState (clickAt { row := 3, col := 0 })
     reverseArmorCard (by decide) (by decide) (by decide)⟩


theorem eraseP_no_match_of_pairwise (d : Position) (l : List GameObject)
    (h : l.Pairwise (fun a b => a.row ≠ b.row ∨ a.col ≠ b.col)) :
    ∀ e ∈ l.eraseP (enemyAt d), enemyAt d e = false := by
  induction l with
  | nil => intro e he; simp at he
  | cons x xs ih =>
    rw [List.pairwise_cons] at h
    by_cases hx : enemyAt d x = true
    · intro e he
      rw [List.eraseP_cons_of_pos hx] at he
      have hne := h.1 e he
      simp only [enemyAt, Bool.and_eq_true, beq_iff_eq] at hx
      cases hb : enemyAt d e with
      | false => rfl
      | true =>
        simp only [enemyAt, Bool.and_eq_true, beq_iff_eq] at hb
        rcases hne with hne | hne
        · exact absurd (hx.1.trans hb.1.symm) hne
        · exact absurd (hx.2.trans hb.2.symm) hne
    · have hx2 : enemyAt d x = false := by simpa using hx
      intro e he
      rw [List.eraseP_cons_of_neg hx] at he
      rcases List.mem_cons.mp he with rfl | he
      · exact hx2
      · exact ih h.2 e he

/-- C11. For an accepted commit to `d` with a player present the enemies
after the resolution are the enemies before with the first enemy on `d`
erased: when some enemy stands on `d` the list splits as `l₁ ++ a :: l₂` with
no enemy of `l₁` on `d` and `a` on `d`, and the result is `l₁ ++ l₂`, one
element shorter; when none stands on `d` the list is unchanged. When no two
enemies share a square no enemy is left on `d`. The test uses `d` also for a
card with `reverse_1`, where the player ends on the origin `o`. -/
theorem C11_capture_removes_first_enemy_on_destination (s : GameState) (ev : ClickEvent)
    (d o : Position) (card : Card)
    (h : commitAccepted s ev = true) (hsq : ev.square = some d)
    (hc : s.selectedCard = some card) (ho : playerPosition s = some o) :
    (resolve s ev).enemies = s.enemies.eraseP (enemyAt d) ∧
    ((∃ e ∈ s.enemies, enemyAt d e = true) →
      ∃ l₁ a l₂, s.enemies = l₁ ++ a :: l₂ ∧ (∀ b ∈ l₁, enemyAt d b = false) ∧
        enemyAt d a = true ∧ (resolve s ev).enemies = l₁ ++ l₂ ∧
        (resolve s ev).enemies.length + 1 = s.enemies.length) ∧
    ((∀ e ∈ s.enemies, enemyAt d e = false) → (resolve s ev).enemies = s.enemies) ∧
    (s.enemies.Pairwise (fun a b => a.row ≠ b.row ∨ a.col ≠ b.col) →
      ∀ e ∈ (resolve s ev).enemies, enemyAt d e = false) ∧
    (card.carries "reverse_1" = true →
      playerPosition (resolve s ev) = some o ∧
      (resolve s ev).enemies = s.enemies.eraseP (enemyAt d)) := by
  obtain ⟨hpos, hen, -⟩ := resolve_summary s ev d o card h hsq hc ho
  refine ⟨hen, ?_, ?_, ?_, ?_⟩
  · rintro ⟨e, he, hpe⟩
    obtain ⟨a, l₁, l₂, hl₁, hpa, hsplit, herase⟩ := List.exists_of_eraseP he hpe
    refine ⟨l₁, a, l₂, hsplit, ?_, hpa, by rw [hen, herase], ?_⟩
    · intro b hb
      simpa using hl₁ b hb
    · rw [hen, herase, hsplit]
      simp
      omega
  · intro hnone
    rw [hen]
    apply List.eraseP_of_forall_not
    intro e he
    simp [hnone e he]
  · intro hpw
    rw [hen]
    exact eraseP_no_match_of_pairwise d s.enemies hpw
  · intro hrev
    exact ⟨by simpa [hrev] using hpos, hen⟩

/-- Witness of C11: the reverse commit to (3,0), which holds the only enemy. -/
theorem C11_capture_removes_first_enemy_on_destination_witness :
    commitAccepted reverseState (clickAt { row := 3, col := 0 }) = true ∧
    reverseState.selectedCard = some reverseArmorCard ∧
    playerPosition reverseState = some { row := 2, col := 2 } ∧
    reverseState.enemies = [{ type := "enemy", row := 3, col := 0 }] ∧
    (resolve reverseState (clickAt { row := 3, col := 0 })).enemies =
      reverseState.enemies.eraseP (enemyAt { row := 3, col := 0 }) ∧
    (resolve reverseState (clickAt { row := 3, col := 0 })).enemies = [] :=
  have hw := C11_capture_removes_first_enemy_on_destination reverseState
    (clickAt { row := 3, col := 0 }) { row := 3, col := 0 } { row := 2, col := 2 }
    reverseArmorCard (by decide) rfl (by decide) (by decide)
  ⟨by decide, by decide, by decide, by decide, hw.1, hw.1.trans (by decide)⟩


theorem resolve_of_not_accepted (s : GameState) (ev : ClickEvent)
    (h : commitAccepted s ev = false) : resolve s ev = s := by
  unfold resolve
  rw [boardClick_of_not_accepted s ev h]

theorem resolve_of_accepted_noPlayer (s : GameState) (ev : ClickEvent)
    (h : commitAccepted s ev = true) (hp : s.gameObjects.find? isPlayer = none) :
    resolve s ev = { s with highlightedSquares := [] } := by
  unfold resolve
  rw [boardClick_of_accepted_noPlayer s ev h hp]

theorem playerPosition_of_find? (s : GameState) (pl : GameObject)
    (hp : s.gameObjects.find? isPlayer = some pl) :
    playerPosition s = some { row := pl.row, col := pl.col } := by
  simp [playerPosition, hp]

theorem resolve_actionsRemaining_nonneg (s : GameState) (ev : ClickEvent)
    (h : 0 ≤ s.actionsRemaining) : 0 ≤ (resolve s ev).actionsRemaining := by
  cases hacc : commitAccepted s ev with
  | false => rw [resolve_of_not_accepted s ev hacc]; exact h
  | true =>
    cases hp : s.gameObjects.find? isPlayer with
    | none => rw [resolve_of_accepted_noPlayer s ev hacc hp]; exact h
    | some pl =>
      obtain ⟨d, card, hsq, hc, -, hpos⟩ := commitAccepted_cases s ev hacc
      have hsum := resolve_summary s ev d _ card hacc hsq hc (playerPosition_of_find? s pl hp)
      rw [hsum.2.2.2.1]
      omega

theorem applyOperation_actionsRemaining_nonneg (cvm : MoveRule) (s : GameState)
    (op : Operation) (h : 0 ≤ s.actionsRemaining) :
    0 ≤ (applyOperation cvm s op).actionsRemaining := by
  cases op with
  | selectCard id =>
    simp only [applyOperation, handleCardSelection_actionsRemaining]
    split <;> omega
  | clearSelection => exact h
  | commitDestination ev => exact resolve_actionsRemaining_nonneg s ev h

theorem applyOperations_actionsRemaining_nonneg (cvm : MoveRule) (ops : List Operation)
    (s : GameState) (h : 0 ≤ s.actionsRemaining) :
    0 ≤ (applyOperations cvm s ops).actionsRemaining := by
  induction ops generalizing s with
  | nil => exact h
  | cons op ops ih => exact ih _ (applyOperation_actionsRemaining_nonneg cvm s op h)

/-- C12. From a state with `actionsRemaining = 1`, every sequence of
select-card, clear-selection and commit-destination operations, each commit
resolved to completion, ends in a state with `actionsRemaining` not negative. -/
theorem C12_actionsRemaining_never_negative (cvm : MoveRule) (s : GameState)
    (ops : List Operation) (h : s.actionsRemaining = 1) :
    0 ≤ (applyOperations cvm s ops).actionsRemaining :=
  applyOperations_actionsRemaining_nonneg cvm ops s (by omega)

/-- Witness of C12: select, commit, clear, select again and commit again from
the start state. -/
theorem C12_actionsRemaining_never_negative_witness :
    startState.actionsRemaining = 1 ∧
    0 ≤ (applyOperations knightMoves startState
      [.selectCard "c0", .commitDestination (clickAt { row := 1, col := 2 }),
       .clearSelection, .selectCard "c1",
       .commitDestination (clickAt { row := 2, col := 4 })]).actionsRemaining :=
  ⟨by decide, C12_actionsRemaining_never_negative knightMoves startState _ (by decide)⟩

/-- C13. The predicate "`selectedCard` is none implies `highlightedSquares`
is empty" is preserved by `handleCardSelection`, by a board-click commit
(rejected, or accepted and resolved to completion), by the synchronous part of
the commit alone, by `clearSelection` and by `endPlayerAction`. -/
theorem C13_empty_highlights_without_selection_preserved :
    (∀ (cvm : MoveRule) (s : GameState) (id : String),
      (s.selectedCard = none → s.highlightedSquares = []) →
      ((handleCardSelection cvm s id).selectedCard = none →
        (handleCardSelection cvm s id).highlightedSquares = [])) ∧
    (∀ (s : GameState) (ev : ClickEvent),
      (s.selectedCard = none → s.highlightedSquares = []) →
      ((resolve s ev).selectedCard = none → (resolve s ev).highlightedSquares = [])) ∧
    (∀ (s : GameState) (ev : ClickEvent),
      (s.selectedCard = none → s.highlightedSquares = []) →
      ((boardClick s ev).1.selectedCard = none →
        (boardClick s ev).1.highlightedSquares = [])) ∧
    (∀ s : GameState,
      (clearSelection s).selectedCard = none → (clearSelection s).highlightedSquares = []) ∧
    (∀ s : GameState,
      (s.selectedCard = none → s.highlightedSquares = []) →
      ((endPlayerAction s).selectedCard = none →
        (endPlayerAction s).highlightedSquares = [])) := by
  refine ⟨?_, ?_, ?_, ?_, ?_⟩
  · intro cvm s id hinv
    cases hf : s.hand.find? (fun c => c.card_id == id) with
    | none =>
      have hn : ∀ c ∈ s.hand, c.card_id ≠ id := by
        intro c hc
        simpa using List.find?_eq_none.mp hf c hc
      rw [handleCardSelection_of_not_found cvm s id hn]
      exact hinv
    | some card =>
      rw [handleCardSelection_of_found cvm s id card hf]
      intro hsel
      simp at hsel
  · intro s ev hinv
    cases hacc : commitAccepted s ev with
    | false => rw [resolve_of_not_accepted s ev hacc]; exact hinv
    | true =>
      cases hp : s.gameObjects.find? isPlayer with
      | none => rw [resolve_of_accepted_noPlayer s ev hacc hp]; intro _; rfl
      | some pl =>
        obtain ⟨d, card, hsq, hc, -, -⟩ := commitAccepted_cases s ev hacc
        have hsum := resolve_summary s ev d _ card hacc hsq hc (playerPosition_of_find? s pl hp)
        intro _
        exact hsum.2.2.2.2.2
  · intro s ev hinv
    cases hacc : commitAccepted s ev with
    | false => rw [boardClick_of_not_accepted s ev hacc]; exact hinv
    | true => intro _; exact boardClick_highlights_of_accepted s ev hacc
  · intro s _
    rfl
  · intro s hinv
    have he : (endPlayerAction s).selectedCard = s.selectedCard ∧
        (endPlayerAction s).highlightedSquares = s.highlightedSquares := by
      simp only [endPlayerAction]
      (repeat' split) <;> exact ⟨rfl, rfl⟩
    rw [he.1, he.2]
    exact hinv

/-- Witness of C13: the start state satisfies the predicate, and so does the
state after an unknown id was selected. -/
theorem C13_empty_highlights_without_selection_preserved_witness :
    (startState.selectedCard = none → startState.highlightedSquares = []) ∧
    ((handleCardSelection knightMoves startState "nope").selectedCard = none →
      (handleCardSelection knightMoves startState "nope").highlightedSquares = []) :=
  ⟨fun _ => by decide,
   C13_empty_highlights_without_selection_preserved.1 knightMoves startState "nope"
     (fun _ => by decide)⟩

/-- C14. For an id that matches a `card_id` in hand, `handleCardSelection`
sets `selectedCard` to the first hand card with that id and
`highlightedSquares` to `calculateValidMoves` of the first player object's
position and that card, or to the empty list without a player object; the
result does not depend on the previous `selectedCard` and
`highlightedSquares`; `hand`, `deck`, `discardPile`, `enemies`, `gameObjects`
and `playerArmor` are unchanged. -/
theorem C14_selection_of_a_hand_card (cvm : MoveRule) (s : GameState) (id : String)
    (h : ∃ c ∈ s.hand, c.card_id = id) :
    (∃ card, s.hand.find? (fun c => c.card_id == id) = some card ∧ card.card_id = id ∧
      (handleCardSelection cvm s id).selectedCard = some card ∧
      (handleCardSelection cvm s id).highlightedSquares =
        (match s.gameObjects.find? isPlayer with
          | some player => cvm { row := player.row, col := player.col } card
          | none => [])) ∧
    (∀ (sel : Option Card) (hl : List Position),
      handleCardSelection cvm { s with selectedCard := sel, highlightedSquares := hl } id =
        handleCardSelection cvm s id) ∧
    (handleCardSelection cvm s id).hand = s.hand ∧
    (handleCardSelection cvm s id).deck = s.deck ∧
    (handleCardSelection cvm s id).discardPile = s.discardPile ∧
    (handleCardSelection cvm s id).enemies = s.enemies ∧
    (handleCardSelection cvm s id).gameObjects = s.gameObjects ∧
    (handleCardSelection cvm s id).playerArmor = s.playerArmor := by
  obtain ⟨card, hf, hid⟩ := find?_card_id_of_mem s.hand id h
  have hfound := handleCardSelection_of_found cvm s id card hf
  refine ⟨⟨card, hf, hid, by rw [hfound], ?_⟩, ?_, by rw [hfound], by rw [hfound],
    by rw [hfound], by rw [hfound], by rw [hfound], by rw [hfound]⟩
  · rw [hfound]
    simp only [playerPosition]
    cases s.gameObjects.find? isPlayer <;> rfl
  · intro sel hl
    rw [hfound, handleCardSelection_of_found cvm
      { s with selectedCard := sel, highlightedSquares := hl } id card hf]
    simp [playerPosition]

/-- Witness of C14: selecting the stamina card at the start of the turn. -/
theorem C14_selection_of_a_hand_card_witness :
    (∃ c ∈ startState.hand, c.card_id = "c1") ∧
    (handleCardSelection knightMoves startState "c1").hand = startState.hand ∧
    (handleCardSelection knightMoves startState "c1").playerArmor = startState.playerArmor :=
  have hw := C14_selection_of_a_hand_card knightMoves startState "c1"
    ⟨staminaCard, by decide, rfl⟩
  ⟨⟨staminaCard, by decide, rfl⟩, hw.2.2.1, hw.2.2.2.2.2.2.2⟩


/-! ## Lemmas on `getDeckCards` -/

theorem own_append_new (g : Grouped) (key n : String) :
    Grouped.own (g ++ [(key, [])]) n =
      match Grouped.own g n with
      | some cards => some cards
      | none => if key = n then some [] else none := by
  induction g with
  | nil => simp [Grouped.own]
  | cons kv rest ih =>
    obtain ⟨k, cards⟩ := kv
    by_cases hk : k = n
    · simp [Grouped.own, hk]
    · simp [Grouped.own, hk, ih]

theorem own_push (g : Grouped) (key n : String) (card : Card) :
    Grouped.own (Grouped.push g key card) n =
      if key = n then (Grouped.own g n).map (fun cards => cards ++ [card])
      else Grouped.own g n := by
  induction g with
  | nil => simp [Grouped.own, Grouped.push]
  | cons kv rest ih =>
    obtain ⟨k, cards⟩ := kv
    by_cases hk : k = key
    · subst hk
      by_cases hn : k = n
      · simp [Grouped.own, Grouped.push, hn]
      · simp [Grouped.own, Grouped.push, hn]
    · by_cases hn : k = n
      · subst hn
        have hkey : ¬ key = k := fun e => hk e.symm
        simp [Grouped.own, Grouped.push, hk, hkey]
      · simp [Grouped.own, Grouped.push, hk, hn, ih]

theorem totalSize_append_new (g : Grouped) (key : String) :
    Grouped.totalSize (g ++ [(key, [])]) = Grouped.totalSize g := by
  simp [Grouped.totalSize]

theorem totalSize_push (g : Grouped) (key : String) (card : Card)
    (h : (Grouped.own g key).isSome = true) :
    Grouped.totalSize (Grouped.push g key card) = Grouped.totalSize g + 1 := by
  induction g with
  | nil => simp [Grouped.own] at h
  | cons kv rest ih =>
    obtain ⟨k, cards⟩ := kv
    by_cases hk : k = key
    · simp [Grouped.push, Grouped.totalSize, hk]
      omega
    · have hrest : (Grouped.own rest key).isSome = true := by
        simpa [Grouped.own, hk] using h
      have := ih hrest
      simp only [Grouped.totalSize] at this
      simp [Grouped.push, Grouped.totalSize, hk, this]
      omega


theorem groupCard_of_safe_name (g : Grouped) (card : Card)
    (hsafe : objectPrototypeKeys.contains card.name = false) :
    ∃ g', groupCard g card = some g' ∧
      (∀ n, Grouped.own g' n =
        if card.name = n then some ((Grouped.own g n).getD [] ++ [card])
        else Grouped.own g n) ∧
      Grouped.totalSize g' = Grouped.totalSize g + 1 := by
  cases hown : Grouped.own g card.name with
  | none =>
    have h1 : Grouped.own (g ++ [(card.name, [])]) card.name = some [] := by
      rw [own_append_new, hown]; simp
    refine ⟨Grouped.push (g ++ [(card.name, [])]) card.name card, ?_, ?_, ?_⟩
    · have hmem : card.name ∉ objectPrototypeKeys := by simpa using hsafe
      simp [groupCard, Grouped.truthy, hown, hmem, h1]
    · intro n
      rw [own_push, own_append_new]
      by_cases hn : card.name = n
      · subst hn
        simp [hown]
      · simp only [hn, if_false]
        cases Grouped.own g n <;> rfl
    · rw [totalSize_push _ _ _ (by rw [h1]; rfl), totalSize_append_new]
  | some cs =>
    refine ⟨Grouped.push g card.name card, ?_, ?_, ?_⟩
    · simp [groupCard, Grouped.truthy, hown]
    · intro n
      rw [own_push]
      by_cases hn : card.name = n
      · subst hn
        simp [hown]
      · simp [hn]
    · exact totalSize_push _ _ _ (by rw [hown]; rfl)

theorem groupAll_of_safe_names (cards : List Card) (g : Grouped)
    (hsafe : ∀ c ∈ cards, objectPrototypeKeys.contains c.name = false) :
    ∃ g', groupAll g cards = some g' ∧
      (∀ n, Grouped.own g' n =
        if cardsNamed n cards = [] then Grouped.own g n
        else some ((Grouped.own g n).getD [] ++ cardsNamed n cards)) ∧
      Grouped.totalSize g' = Grouped.totalSize g + cards.length := by
  induction cards generalizing g with
  | nil => exact ⟨g, rfl, fun n => by simp [cardsNamed], by simp⟩
  | cons c cs ih =>
    obtain ⟨g1, hg1, hown1, hsize1⟩ :=
      groupCard_of_safe_name g c (hsafe c (List.mem_cons_self _ _))
    obtain ⟨g2, hg2, hown2, hsize2⟩ :=
      ih g1 (fun c' hc' => hsafe c' (List.mem_cons_of_mem _ hc'))
    refine ⟨g2, by simp [groupAll, hg1, hg2], ?_, ?_⟩
    · intro n
      rw [hown2 n, hown1 n]
      by_cases hn : c.name = n
      · subst hn
        by_cases hcs : cardsNamed c.name cs = []
        · simp [cardsNamed, List.filter_cons, hcs] at hcs ⊢
        · simp [cardsNamed, List.filter_cons] at hcs ⊢
      · have hcons : cardsNamed n (c :: cs) = cardsNamed n cs := by
          simp [cardsNamed, List.filter_cons, hn]
        rw [hcons]
        simp [hn]
    · rw [hsize2, hsize1]
      simp
      omega

/-- The grouping computed by `getDeckCards` when no card bears the name of a
member of `Object.prototype`: under every name the cards of
`deck ++ hand ++ discardPile` with that name, in order; a key exactly for the
names that occur; sizes summing to the number of cards. -/
theorem getDeckCards_of_safe_names (s : GameState)
    (hsafe : ∀ c ∈ s.deck ++ s.hand ++ s.discardPile,
      objectPrototypeKeys.contains c.name = false) :
    ∃ g, getDeckCards s = (s, some g) ∧
      (∀ n, Grouped.own g n =
        if cardsNamed n (s.deck ++ s.hand ++ s.discardPile) = [] then none
        else some (cardsNamed n (s.deck ++ s.hand ++ s.discardPile))) ∧
      (∀ n, (Grouped.own g n).isSome = true ↔
        ∃ c ∈ s.deck ++ s.hand ++ s.discardPile, c.name = n) ∧
      Grouped.totalSize g = s.deck.length + s.hand.length + s.discardPile.length := by
  obtain ⟨g, hg, hown, hsize⟩ := groupAll_of_safe_names _ [] hsafe
  have hown2 : ∀ n, Grouped.own g n =
      if cardsNamed n (s.deck ++ s.hand ++ s.discardPile) = [] then none
      else some (cardsNamed n (s.deck ++ s.hand ++ s.discardPile)) := by
    intro n
    rw [hown n]
    simp [Grouped.own]
  refine ⟨g, by simp only [getDeckCards]; rw [hg], hown2, ?_, ?_⟩
  · intro n
    rw [hown2 n]
    by_cases hempty : cardsNamed n (s.deck ++ s.hand ++ s.discardPile) = []
    · simp only [hempty, if_true]
      constructor
      · intro hfalse; simp at hfalse
      · rintro ⟨c, hc, hcn⟩
        have : c ∈ cardsNamed n (s.deck ++ s.hand ++ s.discardPile) := by
          simp only [cardsNamed, List.mem_filter, beq_iff_eq]
          exact ⟨hc, hcn⟩
        rw [hempty] at this
        simp at this
    · simp only [hempty, if_false, Option.isSome_some, true_iff]
      obtain ⟨c, hc⟩ := List.exists_mem_of_ne_nil _ hempty
      simp only [cardsNamed, List.mem_filter, beq_iff_eq] at hc
      exact ⟨c, hc.1, hc.2⟩
  · rw [hsize]
    simp [Grouped.totalSize]
    omega

/-- C15 (code bug). With a card named `constructor` in the deck,
`getDeckCards` returns no grouping: `groupedCards["constructor"]` is the
inherited function, so no array is created and the call of `push` on it
raises a `TypeError`. The game state itself is left unchanged. -/
theorem C15_inherited_name_breaks_grouping :
    constructorCard ∈ constructorState.deck ++ constructorState.hand ++
      constructorState.discardPile ∧
    constructorCard.name = "constructor" ∧
    groupCard [] constructorCard = none ∧
    getDeckCards constructorState = (constructorState, none) := by
  decide


/-! ## Lemmas on `gameObjects` -/

theorem setPositionAt_twice (l : List GameObject) (i : Nat) (p q : Position) :
    setPositionAt (setPositionAt l i p) i q = setPositionAt l i q := by
  induction l generalizing i with
  | nil => rfl
  | cons x xs ih =>
    cases i with
    | zero => rfl
    | succ j => simp [setPositionAt, ih j]

theorem map_type_setPositionAt (l : List GameObject) (i : Nat) (p : Position) :
    (setPositionAt l i p).map (fun o => o.type) = l.map (fun o => o.type) := by
  induction l generalizing i with
  | nil => rfl
  | cons x xs ih =>
    cases i with
    | zero => rfl
    | succ j => simp [setPositionAt, ih j]

theorem countP_isPlayer_setPositionAt (l : List GameObject) (i : Nat) (p : Position) :
    (setPositionAt l i p).countP isPlayer = l.countP isPlayer := by
  induction l generalizing i with
  | nil => rfl
  | cons x xs ih =>
    cases i with
    | zero =>
      have hx : isPlayer { x with row := p.row, col := p.col } = isPlayer x := rfl
      simp [setPositionAt, List.countP_cons, hx]
    | succ j => simp [setPositionAt, List.countP_cons, ih j]

theorem getElem?_setPositionAt_ne (l : List GameObject) (i j : Nat) (p : Position)
    (h : j ≠ i) : (setPositionAt l i p)[j]? = l[j]? := by
  induction l generalizing i j with
  | nil => rfl
  | cons x xs ih =>
    cases i with
    | zero =>
      cases j with
      | zero => exact absurd rfl h
      | succ j => simp [setPositionAt]
    | succ i =>
      cases j with
      | zero => simp [setPositionAt]
      | succ j => simpa [setPositionAt] using ih i j (by omega)

theorem getElem?_setPositionAt_self (l : List GameObject) (i : Nat) (p : Position) :
    (setPositionAt l i p)[i]? =
      l[i]?.map (fun o => { o with row := p.row, col := p.col }) := by
  induction l generalizing i with
  | nil => rfl
  | cons x xs ih =>
    cases i with
    | zero => simp [setPositionAt]
    | succ i => simpa [setPositionAt] using ih i

theorem setPositionAt_eq_setPlayerPosition (l : List GameObject) (i : Nat) (p : Position)
    (hi : findIndex? isPlayer l = some i) :
    setPositionAt l i p = setPlayerPosition l p := by
  induction l generalizing i with
  | nil => simp [findIndex?] at hi
  | cons x xs ih =>
    by_cases hx : isPlayer x = true
    · have h0 : i = 0 := by simpa [findIndex?, hx] using hi.symm
      subst h0
      simp [setPositionAt, setPlayerPosition, hx]
    · simp only [Bool.not_eq_true] at hx
      cases hj : findIndex? isPlayer xs with
      | none => simp [findIndex?, hx, hj] at hi
      | some j =>
        have h1 : i = j + 1 := by simpa [findIndex?, hx, hj] using hi.symm
        subst h1
        simp [setPositionAt, setPlayerPosition, hx, ih j hj]

theorem resolve_gameObjects (s : GameState) (ev : ClickEvent) :
    (resolve s ev).gameObjects = s.gameObjects ∨
    ∃ i p, findIndex? isPlayer s.gameObjects = some i ∧
      (resolve s ev).gameObjects = setPositionAt s.gameObjects i p := by
  cases hacc : commitAccepted s ev with
  | false => left; rw [resolve_of_not_accepted s ev hacc]
  | true =>
    cases hp : s.gameObjects.find? isPlayer with
    | none => left; rw [resolve_of_accepted_noPlayer s ev hacc hp]
    | some pl =>
      obtain ⟨d, card, hsq, hc, -, -⟩ := commitAccepted_cases s ev hacc
      obtain ⟨k, -, hres, hidx, -⟩ := resolve_of_accepted_player s ev d card pl hacc hsq hc hp
      right
      by_cases hb : k.branch = Branch.reverse
      · refine ⟨k.playerIndex, k.startPosition, hidx, ?_⟩
        rw [hres, fire_gameObjects]
        simp only [hb, if_true]
        exact setPositionAt_twice _ _ _ _
      · refine ⟨k.playerIndex, d, hidx, ?_⟩
        rw [hres, fire_gameObjects]
        simp only [hb, if_false]

/-- C16. After every commit, rejected or accepted and resolved to completion
on any branch, `gameObjects` has the same length and the same `type` at every
index as before, hence as many player objects; every object other than the
first player object is unchanged, and the first player object differs at most
in `row` and `col`. -/
theorem C16_commit_keeps_shape_of_gameObjects (s : GameState) (ev : ClickEvent) :
    (resolve s ev).gameObjects.length = s.gameObjects.length ∧
    (resolve s ev).gameObjects.map (fun o => o.type) = s.gameObjects.map (fun o => o.type) ∧
    (resolve s ev).gameObjects.countP isPlayer = s.gameObjects.countP isPlayer ∧
    (∀ j, findIndex? isPlayer s.gameObjects ≠ some j →
      (resolve s ev).gameObjects[j]? = s.gameObjects[j]?) ∧
    (∀ j, findIndex? isPlayer s.gameObjects = some j →
      ∃ p : Position, (resolve s ev).gameObjects[j]? =
        s.gameObjects[j]?.map (fun o => { o with row := p.row, col := p.col })) := by
  rcases resolve_gameObjects s ev with h | ⟨i, p, hi, h⟩
  · rw [h]
    refine ⟨rfl, rfl, rfl, fun _ _ => rfl, ?_⟩
    intro j hj
    cases hget : s.gameObjects[j]? with
    | none => exact ⟨{ row := 0, col := 0 }, rfl⟩
    | some o => exact ⟨{ row := o.row, col := o.col }, rfl⟩
  · rw [h]
    refine ⟨length_setPositionAt _ _ _, map_type_setPositionAt _ _ _,
      countP_isPlayer_setPositionAt _ _ _, ?_, ?_⟩
    · intro j hj
      apply getElem?_setPositionAt_ne
      intro hji
      exact hj (hji ▸ hi)
    · intro j hj
      have hji : i = j := by
        rw [hi] at hj
        exact Option.some.inj hj
      subst hji
      exact ⟨p, getElem?_setPositionAt_self _ _ _⟩


/-- Witness of C16: the commit of the card without upgrades to (1,2) keeps the
two objects and their types. -/
theorem C16_commit_keeps_shape_of_gameObjects_witness :
    (resolve plainState (clickAt { row := 1, col := 2 })).gameObjects.length = 2 ∧
    (resolve plainState (clickAt { row := 1, col := 2 })).gameObjects.map (fun o => o.type) =
      ["player", "enemy"] :=
  have hw := C16_commit_keeps_shape_of_gameObjects plainState (clickAt { row := 1, col := 2 })
  ⟨hw.1.trans (by decide), hw.2.1.trans (by decide)⟩

/-! ## The code against the reference pipeline -/

theorem GameState.eq_of_fields (a b : GameState)
    (h1 : a.deck = b.deck) (h2 : a.hand = b.hand) (h3 : a.discardPile = b.discardPile)
    (h4 : a.gameObjects = b.gameObjects) (h5 : a.enemies = b.enemies)
    (h6 : a.selectedCard = b.selectedCard) (h7 : a.highlightedSquares = b.highlightedSquares)
    (h8 : a.actionsRemaining = b.actionsRemaining) (h9 : a.playerArmor = b.playerArmor) :
    a = b := by
  cases a; cases b; simp_all

theorem useCard_hand (s : GameState) (cardId : String) :
    (useCard s cardId).hand = s.hand.eraseP (fun c => c.card_id == cardId) := by
  unfold useCard
  split
  · next hnone =>
    symm
    apply List.eraseP_of_forall_not
    intro c hc
    simpa using List.find?_eq_none.mp hnone c hc
  · rfl

theorem useCard_discardPile (s : GameState) (cardId : String) :
    (useCard s cardId).discardPile =
      s.discardPile ++ (s.hand.find? (fun c => c.card_id == cardId)).toList := by
  unfold useCard
  split
  · next hnone => simp [hnone]
  · next c hsome => simp [hsome]

theorem fire_hand (s : GameState) (k : Continuation) (card : Card)
    (hc : s.selectedCard = some card) :
    (fire s k).hand = s.hand.eraseP (fun c => c.card_id == card.card_id) := by
  unfold fire
  cases k.branch <;>
    simp only [fireReverse, fireUpgraded, firePlain, endPlayerAction_clearSelection] <;>
    (repeat' split) <;> simp_all [useCard_hand]

theorem fire_discardPile (s : GameState) (k : Continuation) (card : Card)
    (hc : s.selectedCard = some card) :
    (fire s k).discardPile =
      s.discardPile ++ (s.hand.find? (fun c => c.card_id == card.card_id)).toList := by
  unfold fire
  cases k.branch <;>
    simp only [fireReverse, fireUpgraded, firePlain, endPlayerAction_clearSelection] <;>
    (repeat' split) <;> simp_all [useCard_discardPile]

theorem fire_deck (s : GameState) (k : Continuation) :
    (fire s k).deck = s.deck := by
  unfold fire
  cases k.branch <;>
    simp only [fireReverse, fireUpgraded, firePlain, endPlayerAction_clearSelection] <;>
    (repeat' split) <;> simp_all [(useCard_frame _ _).2.2.2.2.2]

theorem referencePipeline_fields (s : GameState) (d o : Position) (card : Card)
    (hc : s.selectedCard = some card) (ho : playerPosition s = some o) :
    (referencePipeline s d).deck = s.deck ∧
    (referencePipeline s d).hand = s.hand.eraseP (fun c => c.card_id == card.card_id) ∧
    (referencePipeline s d).discardPile =
      s.discardPile ++ (s.hand.find? (fun c => c.card_id == card.card_id)).toList ∧
    (referencePipeline s d).gameObjects =
      (if card.carries "reverse_1" then
        setPlayerPosition (setPlayerPosition s.gameObjects d) o
      else setPlayerPosition s.gameObjects d) ∧
    (referencePipeline s d).enemies = s.enemies.eraseP (enemyAt d) ∧
    (referencePipeline s d).selectedCard = none ∧
    (referencePipeline s d).highlightedSquares = [] ∧
    (referencePipeline s d).actionsRemaining = s.actionsRemaining - 1 ∧
    (referencePipeline s d).playerArmor =
      s.playerArmor + (if card.carries "armor_1" then 1 else 0) := by
  simp only [referencePipeline, hc, ho, endPlayerAction_clearSelection]
  refine ⟨?_, ?_, ?_, ?_, ?_, trivial, trivial, ?_, ?_⟩ <;>
    (repeat' split) <;>
    simp_all [useCard_hand, useCard_discardPile, useCard_frame]


/-- Counterexample to C17 as stated: in a state without a player object the
accepted commit only clears `highlightedSquares`, while the reference pipeline
still removes the enemy, consumes the card, clears the selection and ends the
action. -/
theorem C17_counterexample_no_player :
    commitAccepted noPlayerState (clickAt { row := 1, col := 2 }) = true ∧
    resolve noPlayerState (clickAt { row := 1, col := 2 }) ≠
      referencePipeline noPlayerState { row := 1, col := 2 } ∧
    (resolve noPlayerState (clickAt { row := 1, col := 2 })).actionsRemaining = 1 ∧
    (referencePipeline noPlayerState { row := 1, col := 2 }).actionsRemaining = 0 ∧
    (resolve noPlayerState (clickAt { row := 1, col := 2 })).selectedCard = some plainCard ∧
    (referencePipeline noPlayerState { row := 1, col := 2 }).selectedCard = none := by
  decide

/-- C17 (amended). For every accepted commit to `d` in a state that holds a
player object, whichever of the three branches runs, the final state of the
code equals the final state of the linear reference pipeline applied to the
state at commit time; and the callbacks of the two non-reverse branches
compute the same state from every state. -/
theorem C17_resolution_equals_reference_pipeline (s : GameState) (ev : ClickEvent)
    (d : Position) (h : commitAccepted s ev = true) (hsq : ev.square = some d)
    (hp : (s.gameObjects.find? isPlayer).isSome = true) :
    resolve s ev = referencePipeline s d ∧
    ∀ (t : GameState) (k : Continuation), fireUpgraded t k = firePlain t k := by
  refine ⟨?_, fun _ _ => rfl⟩
  obtain ⟨pl, hpl⟩ := Option.isSome_iff_exists.mp hp
  obtain ⟨d2, card, -, hc, -, -⟩ := commitAccepted_cases s ev h
  obtain ⟨k, -, hres, hidx, -, hstart, hrev, -⟩ :=
    resolve_of_accepted_player s ev d card pl h hsq hc hpl
  have ho := playerPosition_of_find? s pl hpl
  obtain ⟨-, hen, harm, hact, hsel, hhl⟩ := resolve_summary s ev d _ card h hsq hc ho
  obtain ⟨r1, r2, r3, r4, r5, r6, r7, r8, r9⟩ := referencePipeline_fields s d _ card hc ho
  have hset : ∀ p, setPositionAt s.gameObjects k.playerIndex p =
      setPlayerPosition s.gameObjects p :=
    fun p => setPositionAt_eq_setPlayerPosition _ _ p hidx
  have hset2 : ∀ p q, setPositionAt (setPlayerPosition s.gameObjects p) k.playerIndex q =
      setPlayerPosition (setPlayerPosition s.gameObjects p) q := by
    intro p q
    apply setPositionAt_eq_setPlayerPosition
    rw [← hset p, findIndex?_isPlayer_setPositionAt]
    exact hidx
  apply GameState.eq_of_fields
  · rw [r1, hres, fire_deck]
  · rw [r2, hres]
    exact fire_hand _ k card hc
  · rw [r3, hres]
    exact fire_discardPile _ k card hc
  · rw [r4, hres, fire_gameObjects]
    by_cases hr : card.carries "reverse_1" = true
    · have hb : k.branch = Branch.reverse := hrev.2 hr
      simp only [hb, hr, if_true, hset, hset2, hstart]
    · have hb : ¬ k.branch = Branch.reverse := fun hb => hr (hrev.1 hb)
      have hr2 : card.carries "reverse_1" = false := by simpa using hr
      simp [hb, hr2, hset]
  · rw [r5, hen]
  · rw [r6, hsel]
  · rw [r7, hhl]
  · rw [r8, hact]
  · rw [r9, harm]

/-- Witness of C17 (amended): the reverse commit to (3,0). -/
theorem C17_resolution_equals_reference_pipeline_witness :
    commitAccepted reverseState (clickAt { row := 3, col := 0 }) = true ∧
    (reverseState.gameObjects.find? isPlayer).isSome = true ∧
    resolve reverseState (clickAt { row := 3, col := 0 }) =
      referencePipeline reverseState { row := 3, col := 0 } :=
  ⟨by decide, by decide,
   (C17_resolution_equals_reference_pipeline reverseState (clickAt { row := 3, col := 0 })
      { row := 3, col := 0 } (by decide) rfl (by decide)).1⟩

/-- C18. `endPlayerAction` changes no field other than `actionsRemaining`,
whose new value is the old one minus 1, plus 1 when a card is selected at the
time of the call and its upgrades hold an entry with id `stamina_1` (plus 1
only, however many such entries): the state is unchanged with stamina, and
`actionsRemaining` is one lower without. -/
theorem C18_endPlayerAction_changes_only_actionsRemaining (s : GameState) :
    endPlayerAction s =
      { s with actionsRemaining :=
          s.actionsRemaining - 1 +
            (match s.selectedCard with
              | some card => if card.carries "stamina_1" then 1 else 0
              | none => 0) } ∧
    ((∃ card, s.selectedCard = some card ∧ card.carries "stamina_1" = true) →
      endPlayerAction s = s) ∧
    ((∀ card, s.selectedCard = some card → card.carries "stamina_1" = false) →
      endPlayerAction s = { s with actionsRemaining := s.actionsRemaining - 1 }) := by
  have hmain : endPlayerAction s =
      { s with actionsRemaining :=
          s.actionsRemaining - 1 +
            (match s.selectedCard with
              | some card => if card.carries "stamina_1" then 1 else 0
              | none => 0) } := by
    simp only [endPlayerAction]
    cases hsel : s.selectedCard with
    | none => simp
    | some card =>
      cases hup : card.upgrades with
      | none => simp [Card.carries, hup]
      | some us =>
        by_cases hst : hasUpgradeId us "stamina_1" = true
        · simp [Card.carries, hup, hst]
        · simp [Card.carries, hup, hst]
  refine ⟨hmain, ?_, ?_⟩
  · rintro ⟨card, hsel, hst⟩
    rw [hmain]
    cases s
    simp_all
  · intro hno
    rw [hmain]
    cases hsel : s.selectedCard with
    | none => simp
    | some card => simp [hno card hsel]

/-- Witness of C18: with the stamina card selected `endPlayerAction` changes
nothing. -/
theorem C18_endPlayerAction_changes_only_actionsRemaining_witness :
    (∃ card, staminaState.selectedCard = some card ∧ card.carries "stamina_1" = true) ∧
    endPlayerAction staminaState = staminaState :=
  ⟨⟨staminaCard, by decide, by decide⟩,
   (C18_endPlayerAction_changes_only_actionsRemaining staminaState).2.1
     ⟨staminaCard, by decide, by decide⟩⟩

/-- C19 (code bug). The reverse branch and the non-upgrade branch schedule
their callback with a delay of 300 ms, the upgraded non-reverse branch with a
delay of 30 ms. -/
theorem C19_upgraded_branch_delay_is_30 :
    commitAccepted staminaState (clickAt { row := 1, col := 2 }) = true ∧
    (boardClick staminaState (clickAt { row := 1, col := 2 })).2.map
      (fun k => (k.branch, k.delay)) = some (Branch.upgraded, 30) ∧
    (boardClick reverseState (clickAt { row := 3, col := 0 })).2.map
      (fun k => (k.branch, k.delay)) = some (Branch.reverse, 300) ∧
    (boardClick plainState (clickAt { row := 1, col := 2 })).2.map
      (fun k => (k.branch, k.delay)) = some (Branch.plain, 300) := by
  decide

end ChessKnightsJourney
